import Mathlib

/-!
Verification development for the sindhai note store and indexing engine
(`apps/api/sindhai_api`).  The Python source is shallowly embedded: pure
functions become Lean functions over `List Char` / `String`, the stateful
collaborators (GraphStore, VectorStore, filesystem) become explicit state
records, and machine-level concerns (UTF-8 byte offsets, real wall-clock)
are modelled at the level the source manipulates them (code-point indices,
POSIX timestamps in microseconds).  The YAML library used by
`parsing.py` is external to the repository and is abstracted as a
parameter; the concrete instances used in counterexamples mirror PyYAML's
behaviour on the specific inputs involved.
-/

deriving instance DecidableEq for Except

namespace Sindhai

/-- ASCII whitespace set of Python's `str.strip` / `str.split` (space, tab,
newline, carriage return, vertical tab, form feed). -/
def pyIsSpace (c : Char) : Bool :=
  c = ' ' || c = '\t' || c = '\n' || c = '\r' || c = '\x0b' || c = '\x0c'

/-- Python `str.lstrip()` on a list of characters. -/
def lstripWs (l : List Char) : List Char := l.dropWhile pyIsSpace

/-- Python `str.rstrip()` on a list of characters. -/
def rstripWs (l : List Char) : List Char := (l.reverse.dropWhile pyIsSpace).reverse

/-- Python `str.strip()` on a list of characters. -/
def stripWs (l : List Char) : List Char := rstripWs (lstripWs l)

/-- ASCII lowercasing of one character (Python `str.lower` restricted to the
ASCII range, which covers every input manipulated in the claims). -/
def lowerChar (c : Char) : Char :=
  if 'A' ≤ c && c ≤ 'Z' then Char.ofNat (c.toNat + 32) else c

/-- Python `str.lower()` on a list of characters (ASCII range). -/
def lowerList (l : List Char) : List Char := l.map lowerChar

/-- Python `str.rstrip("\r")`: drop all trailing carriage returns. -/
def rstripCR (l : List Char) : List Char := (l.reverse.dropWhile (· = '\r')).reverse

/-- Does `l` start with the pattern `p` (Python `str.startswith` at an index,
after slicing)? -/
def startsWithL (p l : List Char) : Bool :=
  match p, l with
  | [], _ => true
  | _ :: _, [] => false
  | a :: ps, b :: ls => a = b && startsWithL ps ls

/-- Membership of a character in a character list (Python `in` on `str`). -/
def containsChar (l : List Char) (c : Char) : Bool := l.any (· = c)

/-- Python `str.split("|", 1)` on the first occurrence of `sep`: the part
before the first separator and the part after it. -/
def splitFirst (sep : Char) : List Char → (List Char × List Char)
  | [] => ([], [])
  | c :: rest =>
    if c = sep then ([], rest)
    else
      let (a, b) := splitFirst sep rest
      (c :: a, b)

/-- Python `str.split()` (split on whitespace runs, dropping empty pieces). -/
def splitWsAux (cur : List Char) (acc : List (List Char)) : List Char → List (List Char)
  | [] => if cur.isEmpty then acc.reverse else (cur.reverse :: acc).reverse
  | c :: rest =>
    if pyIsSpace c then
      if cur.isEmpty then splitWsAux [] acc rest
      else splitWsAux [] (cur.reverse :: acc) rest
    else splitWsAux (c :: cur) acc rest

/-- Python `str.split()` as a top-level function. -/
def splitWs (l : List Char) : List (List Char) := splitWsAux [] [] l

/-- Join a list of words with single separators (Python `sep.join`). -/
def joinWith (sep : List Char) : List (List Char) → List Char
  | [] => []
  | [w] => w
  | w :: ws => w ++ sep ++ joinWith sep ws

/-- Split a character list at every occurrence of `sep` (Python
`str.split(sep)` for a one-character separator, keeping empty pieces). -/
def splitChar (sep : Char) : List Char → List (List Char)
  | [] => [[]]
  | c :: rest =>
    let r := splitChar sep rest
    if c = sep then [] :: r
    else
      match r with
      | [] => [[c]]
      | h :: t => (c :: h) :: t

/-- Lexicographic strict order on character lists by code point, matching
Python string comparison. -/
def ltList : List Char → List Char → Bool
  | [], [] => false
  | [], _ :: _ => true
  | _ :: _, [] => false
  | a :: as_, b :: bs => if a = b then ltList as_ bs else decide (a < b)

/-- Insert a string into an already sorted list (ascending, Python
`sorted`). -/
def insertSorted (x : List Char) : List (List Char) → List (List Char)
  | [] => [x]
  | y :: ys => if ltList x y then x :: y :: ys else y :: insertSorted x ys

/-- Sort a list of strings ascending by code point (Python `sorted`). -/
def sortLists (l : List (List Char)) : List (List Char) :=
  l.foldl (fun acc x => insertSorted x acc) []

/-- Association-list lookup by string key, mirroring a Python `dict.get`. -/
def alookup {α : Type} (l : List (String × α)) (k : String) : Option α :=
  match l with
  | [] => none
  | (k2, v) :: rest => if k2 = k then some v else alookup rest k

/-- Association-list write, mirroring a Python `dict[k] = v` (an existing
key keeps its position, a fresh key is appended). -/
def aset {α : Type} (l : List (String × α)) (k : String) (v : α) : List (String × α) :=
  match l with
  | [] => [(k, v)]
  | (k2, v2) :: rest => if k2 = k then (k, v) :: rest else (k2, v2) :: aset rest k v

/-- Association-list removal of a key, mirroring Python `dict.pop(k, None)`. -/
def aerase {α : Type} (l : List (String × α)) (k : String) : List (String × α) :=
  match l with
  | [] => []
  | (k2, v2) :: rest => if k2 = k then rest else (k2, v2) :: aerase rest k

/-!
Markdown parser (`sindhai_api/parsing.py`).
-/

/-- Embedding of `parsing.WikiLink`: raw target, optional raw alias, and the
code-point offsets `[start_offset, end_offset)` of the full `[[...]]` span. -/
structure WikiLink where
  target_raw : String
  alias_raw : Option String
  start_offset : Nat
  end_offset : Nat
deriving Repr, DecidableEq

/-- Embedding of `parsing.normalize_tag`:
`tag.strip().lstrip("#").strip().lower()`. -/
def normalize_tag (s : List Char) : List Char :=
  lowerList (stripWs ((stripWs s).dropWhile (· = '#')))

/-- Embedding of `parsing.normalize_link_target`:
`" ".join(target.strip().split())`. -/
def normalize_link_target (target : String) : String :=
  String.mk (joinWith [' '] (splitWs (stripWs target.toList)))

/-- Locate the first occurrence of `]]` in a character list, returning the
characters before it and the characters after it — the Python
`markdown_body.find("]]", i + 2)` step of the wiki-link branch of
`parse_tags_and_links` (a `none` result is `find` returning `-1`). -/
def findClose : List Char → Option (List Char × List Char)
  | [] => none
  | [_] => none
  | c :: c2 :: rest =>
    if c = ']' && c2 = ']' then some ([], rest)
    else
      match findClose (c2 :: rest) with
      | some (inn, after) => some (c :: inn, after)
      | none => none

/-- The wiki-link record built from the interior of one `[[...]]` span in
`parse_tags_and_links` (`i` is the offset of the opening `[[`, `close` the
offset of the closing `]]`): split on the first `|` when present, strip both
sides, and record a link only under the source's non-emptiness conditions. -/
def mkLink (inner : List Char) (i close : Nat) : Option WikiLink :=
  if containsChar inner '|' then
    let target_raw := stripWs (splitFirst '|' inner).1
    let alias_raw := stripWs (splitFirst '|' inner).2
    if !target_raw.isEmpty && !alias_raw.isEmpty then
      some ⟨String.mk target_raw, some (String.mk alias_raw), i, close + 2⟩
    else none
  else
    let target_raw := stripWs inner
    if !target_raw.isEmpty then
      some ⟨String.mk target_raw, none, i, close + 2⟩
    else none

/-- Is this character allowed inside a tag after `#`
(`cj.isalnum() or cj in {"_", "-", "/"}`, with `isalnum` taken on the ASCII
range used throughout the claims)? -/
def isTagChar (c : Char) : Bool :=
  c.isAlphanum || c = '_' || c = '-' || c = '/'

/-- Add a tag to the accumulated set (`tags.add(tag)` on a Python `set`). -/
def addTag (tags : List (List Char)) (t : List Char) : List (List Char) :=
  if tags.contains t then tags else tags ++ [t]

/-- One-for-one embedding of the scanning loop of
`parsing.parse_tags_and_links`.  The loop walks the body character by
character tracking the fenced-code and inline-code modes, the current
code-point offset `i`, and the previous character (for the
`i == 0 or markdown_body[i - 1] == "\n"` line-start test).  `fuel` bounds
the number of iterations; every iteration consumes at least one character,
so `fuel = length of the remaining text` always suffices. -/
def scanLoop (fuel : Nat) (prev : Option Char) (fence inline : Bool) (i : Nat)
    (tags : List (List Char)) (links : List WikiLink) (s : List Char) :
    List (List Char) × List WikiLink :=
  match fuel with
  | 0 => (tags, links)
  | fuel + 1 =>
    match s with
    | [] => (tags, links)
    | c :: rest =>
      if !inline && (i == 0 || prev == some '\n') && startsWithL ['`', '`', '`'] (c :: rest) then
        scanLoop fuel (some '`') (!fence) inline (i + 3) tags links (rest.drop 2)
      else if fence then
        scanLoop fuel (some c) fence inline (i + 1) tags links rest
      else if c = '`' then
        scanLoop fuel (some '`') fence (!inline) (i + 1) tags links rest
      else if inline then
        scanLoop fuel (some c) fence inline (i + 1) tags links rest
      else if startsWithL ['[', '['] (c :: rest) then
        match findClose (rest.drop 1) with
        | some (inner, after) =>
          let close := i + 2 + inner.length
          let links2 :=
            match mkLink inner i close with
            | some wl => links ++ [wl]
            | none => links
          scanLoop fuel (some ']') fence inline (close + 2) tags links2 after
        | none =>
          scanLoop fuel (some c) fence inline (i + 1) tags links rest
      else if c = '#' then
        let tchars := rest.takeWhile isTagChar
        if tchars.length > 0 then
          let tag := normalize_tag ('#' :: tchars)
          let tags2 := if !tag.isEmpty then addTag tags tag else tags
          scanLoop fuel (some (tchars.getLastD c)) fence inline (i + 1 + tchars.length)
            tags2 links (rest.drop tchars.length)
        else
          scanLoop fuel (some c) fence inline (i + 1) tags links rest
      else
        scanLoop fuel (some c) fence inline (i + 1) tags links rest

/-- Embedding of `parsing.parse_tags_and_links`: scan the body, then return
the sorted deduplicated tag list and the wiki-links in order of
appearance. -/
def parse_tags_and_links (markdown_body : String) : List String × List WikiLink :=
  let l := markdown_body.toList
  let (tags, links) := scanLoop l.length none false false 0 [] [] l
  ((sortLists tags).map String.mk, links)

/-- Scalar values of the external YAML library. -/
inductive YamlScalar where
  | nullS : YamlScalar
  | boolS : Bool → YamlScalar
  | intS : Int → YamlScalar
  | strS : String → YamlScalar
deriving Repr, DecidableEq

/-- Value of one field of a YAML mapping: a scalar or a list of scalars —
the closed variant type suggested by the design notes, covering every
header shape the source inspects (`title`, `tags`, `aliases`). -/
inductive YamlField where
  | fscalar : YamlScalar → YamlField
  | flist : List YamlScalar → YamlField
deriving Repr, DecidableEq

/-- A parsed YAML document: a scalar, a list, or a key-value mapping. -/
inductive YamlVal where
  | scalar : YamlScalar → YamlVal
  | list : List YamlScalar → YamlVal
  | mapping : List (String × YamlField) → YamlVal
deriving Repr, DecidableEq

/-- Shorthand for a string-valued YAML field. -/
def ystr (s : String) : YamlField := .fscalar (.strS s)

/-- Python truth-value testing on a YAML value (`None`, `False`, `0`, `""`,
`[]` and `{}` are falsy), used by the `yaml.safe_load(...) or {}` step. -/
def YamlVal.falsy : YamlVal → Bool
  | .scalar .nullS => true
  | .scalar (.boolS b) => !b
  | .scalar (.intS n) => n == 0
  | .scalar (.strS s) => s == ""
  | .list l => l.isEmpty
  | .mapping m => m.isEmpty

/-- Behaviour of the external `yaml.safe_load` on a block of text: `none`
models the call raising an exception, `some v` a successful parse. -/
def YamlParse : Type := String → Option YamlVal

/-- Behaviour of the external `yaml.safe_dump` on a mapping. -/
def YamlDump : Type := List (String × YamlField) → String

/-- Embedding of `parsing.FrontmatterParse`. -/
structure FrontmatterParse where
  frontmatter : List (String × YamlField)
  body : String
  error : Option String
deriving Repr, DecidableEq

/-- Locate the first newline in a character list, returning the characters
before it and after it — the Python `markdown.find("\n", search_from)` step
(a `none` result is `find` returning `-1`). -/
def splitAtNewline : List Char → Option (List Char × List Char)
  | [] => none
  | c :: rest =>
    if c = '\n' then some ([], rest)
    else
      match splitAtNewline rest with
      | some (before, after) => some (c :: before, after)
      | none => none

/-- The scanning loop of `parsing.parse_frontmatter`: starting after the
opening marker line, look for the next line that is exactly `---` (after
stripping trailing carriage returns).  `blockAcc` accumulates
`markdown[first_newline + 1 : search_from]`, `orig` is the whole original
text.  Reaching the end with no closing marker returns the body-only result.
`fuel` bounds the number of lines; every iteration consumes at least one
character, so the remaining length suffices. -/
def fmLoop (yaml : YamlParse) (orig : String) (fuel : Nat) (blockAcc : List Char)
    (rest : List Char) : FrontmatterParse :=
  match fuel with
  | 0 => ⟨[], orig, none⟩
  | fuel + 1 =>
    match splitAtNewline rest with
    | none => ⟨[], orig, none⟩
    | some (line, after) =>
      if rstripCR line = ['-', '-', '-'] then
        match yaml (String.mk blockAcc) with
        | none => ⟨[], orig, some "frontmatter_yaml_error"⟩
        | some v =>
          let v2 := if v.falsy then YamlVal.mapping [] else v
          match v2 with
          | .mapping m => ⟨m, String.mk after, none⟩
          | _ => ⟨[], orig, some "frontmatter_not_mapping"⟩
      else fmLoop yaml orig fuel (blockAcc ++ line ++ ['\n']) after

/-- Embedding of `parsing.parse_frontmatter`, parameterized by the behaviour
of the external YAML parser.  A header is recognized only when the first
line is exactly the three-character fence marker `---`; the parser then
scans for the next line that is exactly that marker and hands the enclosed
block to YAML. -/
def parse_frontmatter (yaml : YamlParse) (markdown : String) : FrontmatterParse :=
  let l := markdown.toList
  if !startsWithL ['-', '-', '-'] l then ⟨[], markdown, none⟩
  else
    match splitAtNewline l with
    | none => ⟨[], markdown, none⟩
    | some (first_line, after) =>
      if rstripCR first_line = ['-', '-', '-'] then
        fmLoop yaml markdown (after.length + 1) [] after
      else ⟨[], markdown, none⟩

/-- Embedding of `parsing.extract_frontmatter_tags`: the header `tags` field
accepts a string or a list of strings (non-string entries dropped); each is
normalized and empty results are discarded. -/
def extract_frontmatter_tags (frontmatter : List (String × YamlField)) : List (List Char) :=
  let values : List String :=
    match alookup frontmatter "tags" with
    | none => []
    | some (.fscalar (.strS s)) => [s]
    | some (.flist l) => l.filterMap (fun v => match v with | .strS s => some s | _ => none)
    | some _ => []
  (values.map (fun v => normalize_tag v.toList)).filter (fun t => !t.isEmpty)

/-- Embedding of `parsing.ParsedNote`. -/
structure ParsedNote where
  frontmatter : List (String × YamlField)
  frontmatter_error : Option String
  body : String
  tags : List String
  wiki_links : List WikiLink
deriving Repr, DecidableEq

/-- Embedding of `parsing.parse_note`: frontmatter extraction, then tag and
wiki-link scanning of the body, with header tags merged into the sorted
deduplicated tag set. -/
def parse_note (yaml : YamlParse) (markdown : String) : ParsedNote :=
  let fm := parse_frontmatter yaml markdown
  let (tags_inline, wiki_links) := parse_tags_and_links fm.body
  let merged := (extract_frontmatter_tags fm.frontmatter).foldl addTag
    (tags_inline.map String.toList)
  ⟨fm.frontmatter, fm.error, fm.body, (sortLists merged).map String.mk, wiki_links⟩

/-- Strip all leading and trailing newline characters (Python
`str.strip("\n")`). -/
def stripNL (l : List Char) : List Char :=
  ((l.dropWhile (· = '\n')).reverse.dropWhile (· = '\n')).reverse

/-- Embedding of `parsing.render_markdown_with_frontmatter`, parameterized by
the external YAML serializer: an empty mapping renders as the bare body,
otherwise the dumped mapping is wrapped in `---` fences followed by a blank
line and the left-stripped body. -/
def render_markdown_with_frontmatter (dump : YamlDump) (frontmatter : List (String × YamlField))
    (body : String) : String :=
  if frontmatter.isEmpty then body
  else
    String.mk (('-' :: '-' :: '-' :: '\n' :: stripNL (dump frontmatter).toList)
      ++ ('\n' :: '-' :: '-' :: '-' :: '\n' :: '\n' :: lstripWs body.toList))

/-- Concrete model of `yaml.safe_load`, mirroring PyYAML's behaviour on the
specific blocks appearing in the concrete inputs of this development: a
single `title: A` pair parses to a one-entry mapping, `[]` parses to an
empty list, a block sequence parses to a list of strings, an unclosed flow
sequence raises, and an empty block parses to `None`. -/
def yamlParse0 : YamlParse := fun s =>
  if s = "title: A\n" then some (.mapping [("title", ystr "A")])
  else if s = "[]\n" then some (.list [])
  else if s = "- a\n- b\n" then some (.list [.strS "a", .strS "b"])
  else if s = "title: [oops\n" then none
  else some (.scalar .nullS)

/-- Concrete model of `yaml.safe_dump(..., sort_keys=False)`, mirroring
PyYAML's output on the one-entry mapping used in the concrete inputs of
this development. -/
def yamlDump0 : YamlDump := fun m =>
  if m = [("title", ystr "A")] then "title: A\n" else ""

/-!
Path normalization (`sindhai_api/vault.py`, `normalize_note_path`), with the
`PurePosixPath` operations it relies on embedded for relative slash-separated
paths: `parts` drops empty and `.` components, `is_absolute` tests for a
leading slash, `suffix` is the final component's extension, and
`with_suffix` swaps it. -/

/-- Components of a `PurePosixPath` built from a relative slash-separated
string: split on `/`, dropping empty segments and `.` segments. -/
def posixParts (l : List Char) : List (List Char) :=
  (splitChar '/' l).filter (fun seg => !seg.isEmpty && seg ≠ ['.'])

/-- Index (from the start) of the last `.` in a name, if any. -/
def lastDotIdx (name : List Char) : Option Nat :=
  match name.reverse.findIdx? (· = '.') with
  | none => none
  | some k => some (name.length - 1 - k)

/-- `PurePosixPath.suffix` of a final component: the substring from the last
dot, provided that dot is neither leading nor trailing. -/
def posixSuffix (name : List Char) : List Char :=
  match lastDotIdx name with
  | none => []
  | some i => if 0 < i && i + 1 < name.length then name.drop i else []

/-- `PurePosixPath.stem` of a final component: the name minus its suffix. -/
def posixStem (name : List Char) : List Char :=
  name.take (name.length - (posixSuffix name).length)

/-- Embedding of `vault.normalize_note_path`.  Errors are the `PathError`
reason strings raised by the source; the impossible `with_suffix` call on a
path with an empty final component (unreachable from the checked inputs) is
reported as a distinct error. -/
def normalize_note_path (path : String) : Except String String :=
  if containsChar path.toList '\x00' then .error "path_contains_nul"
  else
    let cleaned := (stripWs path.toList).map (fun c => if c = '\\' then '/' else c)
    if cleaned.isEmpty then .error "path_empty"
    else
      let isAbs := startsWithL ['/'] cleaned
      let comps := posixParts cleaned
      if isAbs then .error "path_absolute_not_allowed"
      else if comps.contains ['.', '.'] then .error "path_traversal_not_allowed"
      else if comps.head? = some ".sindhai".toList then .error "path_reserved"
      else
        match comps.getLast? with
        | none => .error "with_suffix_on_empty_name"
        | some name =>
          if lowerList (posixSuffix name) ≠ ['.', 'm', 'd'] then
            let newName := posixStem name ++ ['.', 'm', 'd']
            .ok (String.mk (joinWith ['/'] (comps.dropLast ++ [newName])))
          else .ok (String.mk (joinWith ['/'] comps))

/-!
Timestamps (`sindhai_api/util.py`) and the note-listing model
(`sindhai_api/vault.py`, `Vault.list_summaries`).  Filesystem modification
times are modelled as non-negative POSIX timestamps in whole microseconds,
the precision `datetime.fromtimestamp` keeps. -/

/-- Left-pad the decimal representation of `n` with zeros to `w` digits. -/
def padNum (w n : Nat) : String :=
  let s := toString n
  String.mk (List.replicate (w - s.length) '0') ++ s

/-- Gregorian date from a count of days since 1970-01-01 (the civil-from-days
conversion `datetime.fromtimestamp` performs), returning (year, month, day). -/
def civilFromDays (days : Nat) : Nat × Nat × Nat :=
  let z := days + 719468
  let era := z / 146097
  let doe := z % 146097
  let yoe := (doe - doe / 1460 + doe / 36524 - doe / 146096) / 365
  let y := yoe + era * 400
  let doy := doe - (365 * yoe + yoe / 4 - yoe / 100)
  let mp := (5 * doy + 2) / 153
  let d := doy - (153 * mp + 2) / 5 + 1
  let m := if mp < 10 then mp + 3 else mp - 9
  (if m ≤ 2 then y + 1 else y, m, d)

/-- Embedding of `util.rfc3339_from_timestamp` on a timestamp in
microseconds: `datetime.fromtimestamp(ts, tz=timezone.utc).isoformat()` with
`+00:00` replaced by `Z`.  `isoformat` prints six fractional digits when the
microsecond part is non-zero and omits the fractional part entirely when it
is zero. -/
def rfc3339_from_timestamp (us : Nat) : String :=
  let sec := us / 1000000
  let micro := us % 1000000
  let days := sec / 86400
  let rem := sec % 86400
  let (y, m, d) := civilFromDays days
  padNum 4 y ++ "-" ++ padNum 2 m ++ "-" ++ padNum 2 d ++ "T" ++
    padNum 2 (rem / 3600) ++ ":" ++ padNum 2 (rem % 3600 / 60) ++ ":" ++ padNum 2 (rem % 60) ++
    (if micro = 0 then "" else "." ++ padNum 6 micro) ++ "Z"

/-- One note of the listing model: its relative path, its title and tags (as
`read_note_detail_by_path` would derive them from the file), and the file's
modification time in microseconds. -/
structure VNote where
  path : String
  title : String
  tags : List String
  mtimeUs : Nat
deriving Repr, DecidableEq

/-- The vault as seen by `list_summaries`: the set of note files. -/
structure VaultFiles where
  notes : List VNote
deriving Repr, DecidableEq

/-- Embedding of `vault.NoteSummary` (the id is the path-keyed identity and
plays no role in the ordering claim; it is omitted from the projection). -/
structure NoteSummary where
  title : String
  path : String
  updated_at : String
  tags : List String
deriving Repr, DecidableEq

/-- Embedding of `Vault.list_paths`: all note paths outside the reserved
`.sindhai/` area, sorted. -/
def list_paths (v : VaultFiles) : List String :=
  ((sortLists ((v.notes.map (fun n => n.path.toList)).filter
    (fun p => !startsWithL ".sindhai/".toList p))).map String.mk)

/-- Is `needle` a contiguous sublist of `hay` (Python `in` on strings)? -/
def containsSub (needle hay : List Char) : Bool :=
  match hay with
  | [] => needle.isEmpty
  | _ :: rest => startsWithL needle hay || containsSub needle rest

/-- Stable descending insertion by `updated_at` (the effect of Python's
stable `list.sort(key=..., reverse=True)`): a new element goes after every
element whose key is greater than or equal to its own. -/
def insertByUpdatedDesc (x : NoteSummary) : List NoteSummary → List NoteSummary
  | [] => [x]
  | y :: ys =>
    if ltList y.updated_at.toList x.updated_at.toList then x :: y :: ys
    else y :: insertByUpdatedDesc x ys

/-- Sort summaries by `updated_at` descending, stably. -/
def sortByUpdatedDesc (l : List NoteSummary) : List NoteSummary :=
  l.foldl (fun acc x => insertByUpdatedDesc x acc) []

/-- Embedding of `Vault.list_summaries`: scan all paths in `list_paths`
order, read each note's detail, apply the tag filter (exact membership) and
the text filter (case-insensitive substring of title or path), and sort the
survivors by their `updated_at` string, descending. -/
def list_summaries (v : VaultFiles) (q : Option String) (tag : Option String) :
    List NoteSummary :=
  let wanted_tag : Option (List Char) :=
    match tag with
    | some t => if t = "" then none else some (lowerList (stripWs t.toList))
    | none => none
  let needle : Option (List Char) :=
    match q with
    | some s => if s = "" then none else some (lowerList (stripWs s.toList))
    | none => none
  let base := (list_paths v).filterMap (fun p =>
    match v.notes.find? (fun n => n.path = p) with
    | none => none
    | some n =>
      let summary : NoteSummary := ⟨n.title, n.path, rfc3339_from_timestamp n.mtimeUs, n.tags⟩
      let tagOk :=
        match wanted_tag with
        | some w => n.tags.any (fun t => t.toList = w)
        | none => true
      let textOk :=
        match needle with
        | some w => containsSub w (lowerList n.title.toList) || containsSub w (lowerList n.path.toList)
        | none => true
      if tagOk && textOk then some summary else none)
  sortByUpdatedDesc base

/-!
Identity mapping and note deletion (`sindhai_api/vault.py`, `NoteIdIndex`
and `Vault.delete_note`).  The persisted `notes.json` mapping is an ordered
path-to-id dictionary; the file tree is the set of existing note paths.
The `_abs_path` / `_ensure_under_vault` resolution is not modelled: the
state holds vault-relative paths, for which that check always passes. -/

/-- State of a vault for the deletion model: the persisted path-to-id
mapping and the set of files that exist on disk. -/
structure VaultState where
  mapping : List (String × String)
  files : List String
deriving Repr, DecidableEq

/-- Embedding of `NoteIdIndex.resolve_path`: linear scan of the mapping for
the first path mapped to the given id. -/
def resolve_path (mapping : List (String × String)) (note_id : String) : Option String :=
  match mapping with
  | [] => none
  | (path, mapped_id) :: rest =>
    if mapped_id = note_id then some path else resolve_path rest note_id

/-- Embedding of `NoteIdIndex.delete_path`: remove the entry for a path when
present (`if note_path in mapping: mapping.pop(note_path)`). -/
def delete_path (mapping : List (String × String)) (note_path : String) :
    List (String × String) :=
  if (alookup mapping note_path).isSome then aerase mapping note_path else mapping

/-- Embedding of `Vault.delete_note`: resolve the id to a path (a missing or
empty resolution raises `FileNotFoundError`), unlink the file only if it
exists, remove the mapping entry, and return the path. -/
def delete_note (v : VaultState) (note_id : String) : Except String (String × VaultState) :=
  match resolve_path v.mapping note_id with
  | none => .error "NotFound"
  | some note_path =>
    if note_path = "" then .error "NotFound"
    else
      let files2 := if v.files.contains note_path then v.files.erase note_path else v.files
      .ok (note_path, ⟨delete_path v.mapping note_path, files2⟩)

/-!
Indexing engine (`sindhai_api/indexing/indexer.py`, `Indexer.index_note`)
over explicit states for the two external stores
(`indexing/graph.py: Neo4jGraph`, `indexing/vector.py: QdrantIndex`).
The vault read (`read_note_detail`) is an input: the note's current
`NoteDetail` projection; the catalog build and link resolution (exercised
separately below) enter as the list of resolved target notes that the
source would pass to `replace_outgoing_links`. -/

/-- Embedding of `graph.GraphNote` (the projection the indexer sends to the
graph store). -/
structure GraphNote where
  id : String
  title : String
  path : String
  updated_at : String
  tags : List String
  content_hash : String
deriving Repr, DecidableEq

/-- A Neo4j `Note` node as the store holds it: the metadata properties, the
`parse_error` property, and the `tags` property, which is absent until some
upsert has set it. -/
structure GraphNodeRec where
  title : String
  path : String
  updated_at : String
  content_hash : String
  parse_error : Option String
  tags : Option (List String)
deriving Repr, DecidableEq

/-- State of the graph store: whether a driver is configured, the nodes
keyed by id, and the outgoing `LINKS_TO` edge lists keyed by source id. -/
structure GraphState where
  enabled : Bool
  nodes : List (String × GraphNodeRec)
  edges : List (String × List String)
deriving Repr, DecidableEq

/-- Outgoing edges of a node (an id with no entry has none). -/
def edgesOf (g : GraphState) (id : String) : List String :=
  (alookup g.edges id).getD []

/-- The stored `tags` property of a node (absent when the node is absent or
the property was never set). -/
def tagsOf (g : GraphState) (id : String) : Option (List String) :=
  (alookup g.nodes id).bind (fun n => n.tags)

/-- Embedding of `Neo4jGraph.note_content_hash`: `None` without a driver or
without a stored node, else the stored `content_hash` property. -/
def note_content_hash (g : GraphState) (note_id : String) : Option String :=
  if !g.enabled then none
  else (alookup g.nodes note_id).map (fun n => n.content_hash)

/-- Embedding of `Neo4jGraph._upsert_note_tx` (via `upsert_note`): `MERGE`
the node and `SET` title, path, updated_at, content_hash and parse_error;
the `tags` property is `SET` only when `update_tags` is true, otherwise the
node keeps whatever tags property it had (none, if freshly created). -/
def upsert_note (g : GraphState) (note : GraphNote) (parse_error : Option String)
    (update_tags : Bool) : GraphState :=
  if !g.enabled then g
  else
    let oldTags : Option (List String) :=
      match alookup g.nodes note.id with
      | some old => old.tags
      | none => none
    let newTags := if update_tags then some note.tags else oldTags
    let rec2 : GraphNodeRec :=
      ⟨note.title, note.path, note.updated_at, note.content_hash, parse_error, newTags⟩
    { g with nodes := aset g.nodes note.id rec2 }

/-- The per-target `MERGE` of `Neo4jGraph._replace_outgoing_links_tx`:
overwrite the target node's metadata and tags (every field of the sent
record is non-null, so each `COALESCE` picks it); the node's `parse_error`
property is untouched. -/
def mergeTarget (acc : GraphState) (t : GraphNote) : GraphState :=
  let pe : Option String :=
    match alookup acc.nodes t.id with
    | some old => old.parse_error
    | none => none
  let rec2 : GraphNodeRec :=
    ⟨t.title, t.path, t.updated_at, t.content_hash, pe, some t.tags⟩
  { acc with nodes := aset acc.nodes t.id rec2 }

/-- Embedding of `Neo4jGraph._replace_outgoing_links_tx` (via
`replace_outgoing_links`): delete every outgoing `LINKS_TO` edge of the
source, then — when targets remain — `MERGE` each target node and `MERGE`
one edge per distinct target id. -/
def replace_outgoing_links (g : GraphState) (note_id : String) (targets : List GraphNote) :
    GraphState :=
  if !g.enabled then g
  else
    let g1 := { g with edges := aset g.edges note_id [] }
    if targets.isEmpty then g1
    else
      let g2 := targets.foldl mergeTarget g1
      { g2 with edges := aset g2.edges note_id ((targets.map (fun t => t.id)).dedup) }

/-- The payload `QdrantIndex.upsert_note` stores with a point. -/
structure VectorPayload where
  note_id : String
  title : String
  path : String
  updated_at : String
  content_hash : String
  snippet : String
deriving Repr, DecidableEq

/-- State of the vector store: whether a client is configured and the stored
points keyed by note id (the embedding vector itself is opaque and carries
no information the source ever reads back). -/
structure VectorState where
  enabled : Bool
  points : List (String × VectorPayload)
deriving Repr, DecidableEq

/-- Embedding of `vector.VectorNote`. -/
structure VectorNote where
  id : String
  title : String
  path : String
  updated_at : String
  content_hash : String
  text : String
  snippet : String
deriving Repr, DecidableEq

/-- Embedding of `QdrantIndex.upsert_note`: without a client, a no-op; when
the stored payload for the id carries the same `content_hash`, return
without re-embedding; otherwise embed the text and upsert the point.  The
returned flag records whether `embed_text` ran. -/
def vector_upsert_note (v : VectorState) (note : VectorNote) : VectorState × Bool :=
  if !v.enabled then (v, false)
  else
    let payload : VectorPayload :=
      ⟨note.id, note.title, note.path, note.updated_at, note.content_hash, note.snippet⟩
    match alookup v.points note.id with
    | some p =>
      if p.content_hash = note.content_hash then (v, false)
      else ({ v with points := aset v.points note.id payload }, true)
    | none => ({ v with points := aset v.points note.id payload }, true)

/-- The `NoteDetail` projection `index_note` reads from the vault. -/
structure NoteDetail where
  id : String
  title : String
  path : String
  updated_at : String
  content_markdown : String
  content_hash : String
  tags : List String
  frontmatter_error : Option String
deriving Repr, DecidableEq

/-- Result of one `index_note` call: the two new store states, whether the
graph store executed an edge-replacement transaction, and whether the
vector store computed an embedding. -/
structure IndexOutcome where
  graph : GraphState
  vector : VectorState
  replacedEdges : Bool
  embedded : Bool
deriving Repr, DecidableEq

/-- Embedding of `Indexer.index_note`.  `detail` is the current
`NoteDetail`; `targets` is the list of resolved wiki-link target notes that
`build_catalog` + `resolve_wikilinks` + per-target reads would produce (it
is only consulted on the refresh path, exactly as in the source).  The
previously stored fingerprint is read (absent without a configured store),
metadata is always upserted, and tags plus outgoing links are replaced only
when the content hash changed and parsing succeeded; the vector upsert runs
independently of the graph outcome. -/
def index_note (detail : NoteDetail) (targets : List GraphNote)
    (g : GraphState) (v : VectorState) : IndexOutcome :=
  let graph_note : GraphNote :=
    ⟨detail.id, detail.title, detail.path, detail.updated_at, detail.tags, detail.content_hash⟩
  let parse_error := detail.frontmatter_error
  let prev_hash := if g.enabled then note_content_hash g detail.id else none
  let content_changed := prev_hash ≠ some detail.content_hash
  let update_tags_and_links := content_changed && parse_error.isNone
  let g1 := upsert_note g graph_note parse_error update_tags_and_links
  let g2 := if update_tags_and_links then replace_outgoing_links g1 detail.id targets else g1
  let snippet := String.mk (stripWs ((detail.content_markdown.toList.take 280).map
    (fun c => if c = '\n' then ' ' else c)))
  let vec_note : VectorNote :=
    ⟨detail.id, detail.title, detail.path, detail.updated_at, detail.content_hash,
      detail.title ++ "\n\n" ++ detail.content_markdown, snippet⟩
  let vres := vector_upsert_note v vec_note
  ⟨g2, vres.1, update_tags_and_links && g.enabled, vres.2⟩

/-!
Link resolution (`sindhai_api/indexing/indexer.py`, `CatalogEntry` and
`resolve_wikilinks`). -/

/-- Embedding of `indexer.CatalogEntry`. -/
structure CatalogEntry where
  id : String
  title : String
  path : String
  aliases : List String
deriving Repr, DecidableEq

instance : Inhabited CatalogEntry := ⟨⟨"", "", "", []⟩⟩

/-- Does `l` end with the pattern `suf`? -/
def endsWithL (suf l : List Char) : Bool := startsWithL suf.reverse l.reverse

/-- Python `str.removesuffix`. -/
def removesuffixL (suf l : List Char) : List Char :=
  if endsWithL suf l then l.take (l.length - suf.length) else l

/-- Embedding of `CatalogEntry.stem`:
`path.rsplit("/", 1)[-1].removesuffix(".md")`. -/
def CatalogEntry.stem (e : CatalogEntry) : String :=
  String.mk (removesuffixL ['.', 'm', 'd'] ((splitChar '/' e.path.toList).getLastD []))

/-- One `setdefault(key, []).append(e)` step on a lookup map. -/
def mapAdd (m : List (String × List CatalogEntry)) (k : String) (e : CatalogEntry) :
    List (String × List CatalogEntry) :=
  match alookup m k with
  | some l => aset m k (l ++ [e])
  | none => m ++ [(k, [e])]

/-- The three lookup indexes `resolve_wikilinks` builds from the catalog:
normalized title, normalized alias, and raw filename stem, in catalog
order. -/
def buildMaps (catalog : List CatalogEntry) :
    List (String × List CatalogEntry) × List (String × List CatalogEntry)
      × List (String × List CatalogEntry) :=
  catalog.foldl (fun (maps : _ × _ × _) e =>
    let (tm, am, sm) := maps
    let tm2 := mapAdd tm (normalize_link_target e.title) e
    let am2 := e.aliases.foldl (fun acc a => mapAdd acc (normalize_link_target a) e) am
    let sm2 := mapAdd sm e.stem e
    (tm2, am2, sm2)) ([], [], [])

/-- Python's `title_map.get(key) or alias_map.get(key) or stem_map.get(key)
or []`: the first lookup result that is neither `None` nor empty. -/
def pyOrGet (x : Option (List CatalogEntry)) (y : List CatalogEntry) : List CatalogEntry :=
  match x with
  | some l => if l.isEmpty then y else l
  | none => y

/-- The candidate list consulted for one link key. -/
def candidatesFor (tm am sm : List (String × List CatalogEntry)) (key : String) :
    List CatalogEntry :=
  pyOrGet (alookup tm key) (pyOrGet (alookup am key) (pyOrGet (alookup sm key) []))

/-- Every candidate the three indexes hold for a key, combined. -/
def combinedCandidates (tm am sm : List (String × List CatalogEntry)) (key : String) :
    List CatalogEntry :=
  (alookup tm key).getD [] ++ (alookup am key).getD [] ++ (alookup sm key).getD []

/-- The projection of a candidate reported in an ambiguity diagnostic
(`{"id": c.id, "title": c.title, "path": c.path}`). -/
structure CandRef where
  id : String
  title : String
  path : String
deriving Repr, DecidableEq

/-- One entry of the `ambiguous` diagnostics list. -/
structure AmbigRec where
  target : String
  candidates : List CandRef
deriving Repr, DecidableEq

/-- Accumulated state of the resolution loop: the `resolved` dictionary
keyed by candidate id, and the two diagnostics lists. -/
structure ResolveState where
  resolved : List (String × CatalogEntry)
  ambiguous : List AmbigRec
  unresolved : List String
deriving Repr, DecidableEq

/-- One iteration of the loop of `resolve_wikilinks` for one wiki-link:
look the normalized target up in the three indexes with the source's
priority fallback; a single candidate is recorded as resolved, several are
reported ambiguous with the full candidate list and nothing resolved, none
are reported unresolved. -/
def resolveStep (tm am sm : List (String × List CatalogEntry)) (st : ResolveState)
    (wl : WikiLink) : ResolveState :=
  let key := normalize_link_target wl.target_raw
  let candidates := candidatesFor tm am sm key
  if candidates.length = 1 then
    { st with resolved := aset st.resolved (candidates.headD default).id (candidates.headD default) }
  else if candidates.length > 1 then
    { st with ambiguous := st.ambiguous ++
        [⟨wl.target_raw, candidates.map (fun c => ⟨c.id, c.title, c.path⟩)⟩] }
  else
    { st with unresolved := st.unresolved ++ [wl.target_raw] }

/-- Embedding of `indexer.resolve_wikilinks` given the note's current text
and the catalog: parse the note, build the three indexes, fold the loop
over its wiki-links, and return the resolved targets (dictionary order)
plus the diagnostics. -/
def resolve_wikilinks (yaml : YamlParse) (content_markdown : String)
    (catalog : List CatalogEntry) : List CatalogEntry × List AmbigRec × List String :=
  let parsed := parse_note yaml content_markdown
  let (tm, am, sm) := buildMaps catalog
  let st := parsed.wiki_links.foldl (resolveStep tm am sm) ⟨[], [], []⟩
  (st.resolved.map (fun p => p.2), st.ambiguous, st.unresolved)

/-!
Shared lemmas about the association-list primitives.
-/

theorem alookup_eq_none {α : Type} (m : List (String × α)) (k : String)
    (h : ∀ pr ∈ m, pr.1 ≠ k) : alookup m k = none := by
  induction m with
  | nil => rfl
  | cons hd tl ih =>
    simp only [alookup]
    have hne : hd.1 ≠ k := h hd (by simp)
    rw [if_neg hne]
    exact ih (fun pr hpr => h pr (by simp [hpr]))

theorem alookup_aerase_ne {α : Type} (m : List (String × α)) (k k2 : String)
    (h : k2 ≠ k) : alookup (aerase m k) k2 = alookup m k2 := by
  induction m with
  | nil => rfl
  | cons hd tl ih =>
    simp only [aerase]
    by_cases h1 : hd.1 = k
    · rw [if_pos h1]
      have h3 : hd.1 ≠ k2 := by rw [h1]; exact fun he => h he.symm
      conv_rhs => simp only [alookup]
      rw [if_neg h3]
    · rw [if_neg h1]
      simp only [alookup]
      by_cases h2 : hd.1 = k2
      · rw [if_pos h2, if_pos h2]
      · rw [if_neg h2, if_neg h2, ih]

theorem alookup_aerase_self {α : Type} (m : List (String × α)) (k : String)
    (hnd : (m.map Prod.fst).Nodup) : alookup (aerase m k) k = none := by
  induction m with
  | nil => rfl
  | cons hd tl ih =>
    simp only [aerase]
    by_cases h1 : hd.1 = k
    · rw [if_pos h1]
      apply alookup_eq_none
      intro pr hpr
      have : hd.1 ∉ tl.map Prod.fst := (List.nodup_cons.mp (by simpa using hnd)).1
      intro he
      exact this (by rw [h1, ← he]; exact List.mem_map_of_mem Prod.fst hpr)
    · rw [if_neg h1, alookup, if_neg h1]
      exact ih (List.nodup_cons.mp (by simpa using hnd)).2

theorem resolve_path_some_mem (m : List (String × String)) (id p : String)
    (h : resolve_path m id = some p) : (p, id) ∈ m := by
  induction m with
  | nil => simp [resolve_path] at h
  | cons hd tl ih =>
    simp only [resolve_path] at h
    by_cases h1 : hd.2 = id
    · rw [if_pos h1] at h
      have h2 : hd = (p, id) := by
        cases hd with
        | mk a b => simp_all
      rw [h2]
      exact List.mem_cons_self (p, id) tl
    · rw [if_neg h1] at h
      exact List.mem_cons_of_mem hd (ih h)

theorem alookup_isSome_of_mem {α : Type} (m : List (String × α)) (k : String) (v : α)
    (h : (k, v) ∈ m) : (alookup m k).isSome = true := by
  induction m with
  | nil => simp at h
  | cons hd tl ih =>
    simp only [alookup]
    by_cases h1 : hd.1 = k
    · rw [if_pos h1]; rfl
    · rw [if_neg h1]
      rcases List.mem_cons.mp h with h2 | h2
      · exact absurd (by rw [← h2]) h1
      · exact ih h2

theorem alookup_aset_self {α : Type} (m : List (String × α)) (k : String) (v : α) :
    alookup (aset m k v) k = some v := by
  induction m with
  | nil => simp [aset, alookup]
  | cons hd tl ih =>
    simp only [aset]
    by_cases h1 : hd.1 = k
    · rw [if_pos h1]
      simp [alookup]
    · rw [if_neg h1]
      simp only [alookup]
      rw [if_neg h1]
      exact ih

theorem alookup_aset_ne {α : Type} (m : List (String × α)) (k k2 : String) (v : α)
    (h : k2 ≠ k) : alookup (aset m k v) k2 = alookup m k2 := by
  induction m with
  | nil =>
    simp only [aset, alookup]
    rw [if_neg (fun he => h he.symm)]
  | cons hd tl ih =>
    simp only [aset]
    by_cases h1 : hd.1 = k
    · rw [if_pos h1]
      simp only [alookup]
      rw [if_neg (fun he => h he.symm), if_neg (by rw [h1]; exact fun he => h he.symm)]
    · rw [if_neg h1]
      simp only [alookup]
      by_cases h2 : hd.1 = k2
      · rw [if_pos h2, if_pos h2]
      · rw [if_neg h2, if_neg h2, ih]

/-!
Preservation lemmas for the store operations.
-/

theorem upsert_note_enabled (g : GraphState) (n : GraphNote) (pe : Option String)
    (u : Bool) : (upsert_note g n pe u).enabled = g.enabled := by
  unfold upsert_note
  split <;> rfl

theorem upsert_note_edges (g : GraphState) (n : GraphNote) (pe : Option String)
    (u : Bool) : (upsert_note g n pe u).edges = g.edges := by
  unfold upsert_note
  split <;> rfl

theorem mergeTarget_enabled (acc : GraphState) (t : GraphNote) :
    (mergeTarget acc t).enabled = acc.enabled := rfl

theorem mergeTarget_edges (acc : GraphState) (t : GraphNote) :
    (mergeTarget acc t).edges = acc.edges := rfl

theorem foldl_mergeTarget_enabled (targets : List GraphNote) (acc : GraphState) :
    (targets.foldl mergeTarget acc).enabled = acc.enabled := by
  induction targets generalizing acc with
  | nil => rfl
  | cons t ts ih => rw [List.foldl_cons, ih, mergeTarget_enabled]

theorem foldl_mergeTarget_edges (targets : List GraphNote) (acc : GraphState) :
    (targets.foldl mergeTarget acc).edges = acc.edges := by
  induction targets generalizing acc with
  | nil => rfl
  | cons t ts ih => rw [List.foldl_cons, ih, mergeTarget_edges]

theorem replace_outgoing_links_enabled (g : GraphState) (id : String)
    (targets : List GraphNote) : (replace_outgoing_links g id targets).enabled = g.enabled := by
  unfold replace_outgoing_links
  split
  · rfl
  · split
    · rfl
    · exact foldl_mergeTarget_enabled targets _

/-- After `replace_outgoing_links`, the stored outgoing edges of the source
are the distinct target ids. -/
theorem replace_outgoing_links_edges (g : GraphState) (id : String)
    (targets : List GraphNote) (hg : g.enabled = true) :
    edgesOf (replace_outgoing_links g id targets) id = (targets.map (fun t => t.id)).dedup := by
  unfold replace_outgoing_links
  rw [hg]
  simp only [Bool.not_true, if_neg (by simp : ¬ (false = true))]
  by_cases ht : targets.isEmpty
  · rw [if_pos ht]
    rw [List.isEmpty_iff.mp ht]
    simp [edgesOf, alookup_aset_self]
  · rw [if_neg ht]
    simp only [edgesOf, foldl_mergeTarget_edges]
    rw [alookup_aset_self]
    rfl

/-- Merging targets never disturbs the stored record of an id as long as
every target that shares that id writes back exactly the record already
stored. -/
theorem foldl_mergeTarget_lookup (id : String) (node : GraphNodeRec)
    (targets : List GraphNote) :
    ∀ acc : GraphState, alookup acc.nodes id = some node →
    (∀ t ∈ targets, t.id = id →
      (⟨t.title, t.path, t.updated_at, t.content_hash, node.parse_error, some t.tags⟩ :
        GraphNodeRec) = node) →
    alookup (targets.foldl mergeTarget acc).nodes id = some node := by
  induction targets with
  | nil => intro acc hacc _; exact hacc
  | cons t ts ih =>
    intro acc hacc hcons
    rw [List.foldl_cons]
    apply ih
    · by_cases hid : t.id = id
      · simp only [mergeTarget, hid, hacc]
        rw [alookup_aset_self]
        exact congrArg some (hcons t (by simp) hid)
      · simp only [mergeTarget]
        rw [alookup_aset_ne _ _ _ _ (fun he => hid he.symm)]
        exact hacc
    · exact fun t2 h2 => hcons t2 (by simp [h2])

theorem vector_upsert_note_enabled (v : VectorState) (n : VectorNote) :
    (vector_upsert_note v n).1.enabled = v.enabled := by
  unfold vector_upsert_note
  split
  · rfl
  · split <;> try rfl
    split <;> rfl

/-- After an upsert, the stored payload for the note carries the note's
content hash. -/
theorem vector_upsert_note_hash (v : VectorState) (n : VectorNote)
    (hv : v.enabled = true) :
    (alookup (vector_upsert_note v n).1.points n.id).map (fun p => p.content_hash) =
      some n.content_hash := by
  cases hl : alookup v.points n.id with
  | none => simp [vector_upsert_note, hv, hl, alookup_aset_self]
  | some p =>
    by_cases he : p.content_hash = n.content_hash
    · simp [vector_upsert_note, hv, hl, he]
    · simp [vector_upsert_note, hv, hl, he, alookup_aset_self]

/-- What `upsert_note` stores for the upserted id on a configured store:
fresh metadata and parse error, and tags only when `update_tags` is set. -/
theorem upsert_note_lookup (g : GraphState) (n : GraphNote) (pe : Option String) (u : Bool)
    (hg : g.enabled = true) :
    alookup (upsert_note g n pe u).nodes n.id =
      some ⟨n.title, n.path, n.updated_at, n.content_hash, pe,
        if u then some n.tags else tagsOf g n.id⟩ := by
  simp only [upsert_note, hg, Bool.not_true, Bool.false_eq_true, if_false]
  rw [alookup_aset_self]
  cases halt : alookup g.nodes n.id <;> simp [tagsOf, halt]

theorem upsert_note_hash (g : GraphState) (n : GraphNote) (pe : Option String) (u : Bool)
    (hg : g.enabled = true) :
    (alookup (upsert_note g n pe u).nodes n.id).map (fun r => r.content_hash) =
      some n.content_hash := by
  rw [upsert_note_lookup g n pe u hg]
  rfl

/-- Merging targets preserves the content hash stored for an id as long as
every target sharing that id carries the same hash. -/
theorem foldl_mergeTarget_hash (id : String) (H : String) (targets : List GraphNote) :
    ∀ acc : GraphState, (alookup acc.nodes id).map (fun r => r.content_hash) = some H →
    (∀ t ∈ targets, t.id = id → t.content_hash = H) →
    (alookup (targets.foldl mergeTarget acc).nodes id).map (fun r => r.content_hash) =
      some H := by
  induction targets with
  | nil => intro acc hacc _; exact hacc
  | cons t ts ih =>
    intro acc hacc hcons
    rw [List.foldl_cons]
    apply ih
    · by_cases hid : t.id = id
      · simp only [mergeTarget, hid]
        rw [alookup_aset_self]
        simp [hcons t (by simp) hid]
      · simp only [mergeTarget]
        rw [alookup_aset_ne _ _ _ _ (fun he => hid he.symm)]
        exact hacc
    · exact fun t2 h2 => hcons t2 (by simp [h2])

theorem replace_outgoing_links_hash (g : GraphState) (id : String)
    (targets : List GraphNote) (H : String)
    (h : (alookup g.nodes id).map (fun r => r.content_hash) = some H)
    (hcons : ∀ x ∈ targets, x.id = id → x.content_hash = H) :
    (alookup (replace_outgoing_links g id targets).nodes id).map (fun r => r.content_hash) =
      some H := by
  unfold replace_outgoing_links
  split
  · exact h
  · split
    · exact h
    · exact foldl_mergeTarget_hash id H targets _ h hcons

theorem replace_outgoing_links_lookup (g : GraphState) (id : String)
    (targets : List GraphNote) (node : GraphNodeRec)
    (h : alookup g.nodes id = some node)
    (hcons : ∀ t ∈ targets, t.id = id →
      (⟨t.title, t.path, t.updated_at, t.content_hash, node.parse_error, some t.tags⟩ :
        GraphNodeRec) = node) :
    alookup (replace_outgoing_links g id targets).nodes id = some node := by
  unfold replace_outgoing_links
  split
  · exact h
  · split
    · exact h
    · exact foldl_mergeTarget_lookup id node targets _ h hcons

theorem index_note_graph_enabled (d : NoteDetail) (t : List GraphNote) (g : GraphState)
    (v : VectorState) : (index_note d t g v).graph.enabled = g.enabled := by
  simp only [index_note]
  split <;> split <;>
    simp only [replace_outgoing_links_enabled, upsert_note_enabled]

theorem index_note_graph_disabled (d : NoteDetail) (t : List GraphNote) (g : GraphState)
    (v : VectorState) (hg : g.enabled = false) : (index_note d t g v).graph = g := by
  have h1 : ∀ u : Bool, upsert_note g
      ⟨d.id, d.title, d.path, d.updated_at, d.tags, d.content_hash⟩ d.frontmatter_error u = g := by
    intro u
    simp [upsert_note, hg]
  have h2 : replace_outgoing_links g d.id t = g := by
    simp [replace_outgoing_links, hg]
  simp only [index_note, h1, h2]
  split <;> split <;> rfl

theorem index_note_hash_after (d : NoteDetail) (t : List GraphNote) (g : GraphState)
    (v : VectorState) (hg : g.enabled = true)
    (hcons : ∀ x ∈ t, x.id = d.id → x.content_hash = d.content_hash) :
    note_content_hash (index_note d t g v).graph d.id = some d.content_hash := by
  have hE : (index_note d t g v).graph.enabled = true := by
    rw [index_note_graph_enabled]; exact hg
  have hstep : ∀ g2 : GraphState, g2.enabled = true →
      (alookup g2.nodes d.id).map (fun r => r.content_hash) = some d.content_hash →
      note_content_hash g2 d.id = some d.content_hash := by
    intro g2 h1 h2
    simp [note_content_hash, h1, h2]
  apply hstep _ hE
  simp only [index_note]
  split
  · split
    · exact replace_outgoing_links_hash _ _ _ _
        (upsert_note_hash g _ d.frontmatter_error _ hg) hcons
    · exact upsert_note_hash g _ d.frontmatter_error _ hg
  · next h => exact absurd hg h

theorem index_note_vector_enabled (d : NoteDetail) (t : List GraphNote) (g : GraphState)
    (v : VectorState) : (index_note d t g v).vector.enabled = v.enabled := by
  simp only [index_note]
  exact vector_upsert_note_enabled _ _

theorem index_note_vector_hash (d : NoteDetail) (t : List GraphNote) (g : GraphState)
    (v : VectorState) (hv : v.enabled = true) :
    (alookup (index_note d t g v).vector.points d.id).map (fun p => p.content_hash) =
      some d.content_hash := by
  simp only [index_note]
  exact vector_upsert_note_hash v _ hv

/-- Locating the closing `]]` of a well-formed span: when the interior
contains no `]]` (also counting a closing bracket it would form with the
span's own terminator), the first `]]` found is the span's terminator. -/
theorem findClose_append (inner rest : List Char)
    (h : containsSub [']', ']'] (inner ++ [']']) = false) :
    findClose (inner ++ ']' :: ']' :: rest) = some (inner, rest) := by
  induction inner with
  | nil => simp [findClose]
  | cons c cs ih =>
    simp only [List.cons_append, containsSub, Bool.or_eq_false_iff] at h
    have hstart := h.1
    have hsub : containsSub [']', ']'] (cs ++ [']']) = false := h.2
    cases cs with
    | nil =>
      by_cases h1 : c = ']'
      · exfalso
        subst h1
        simp [startsWithL] at hstart
      · simp [findClose, h1]
    | cons c2 cs2 =>
      have hfc := ih hsub
      simp only [List.cons_append] at hfc
      by_cases h1 : c = ']'
      · by_cases h2 : c2 = ']'
        · exfalso
          subst h1
          subst h2
          simp [startsWithL] at hstart
        · simp [findClose, h2, hfc]
      · simp [findClose, h1, hfc]

/-- Splitting on the first `|` of `t ++ "|" ++ a` when `t` itself contains
no `|` yields `(t, a)` (Python `inner.split("|", 1)`). -/
theorem splitFirst_append (t a : List Char) (h : containsChar t '|' = false) :
    splitFirst '|' (t ++ '|' :: a) = (t, a) := by
  induction t with
  | nil => simp [splitFirst]
  | cons c cs ih =>
    simp only [containsChar, List.any_cons, Bool.or_eq_false_iff] at h
    have hc : ¬ c = '|' := by
      intro he
      rw [he] at h
      simp at h
    have ih2 := ih (by simp [containsChar, h.2])
    simp [splitFirst, hc, ih2]

/-- A span interior `t|a` whose alias part trims to nothing produces no
wiki-link record at all. -/
theorem mkLink_empty_alias (t a : List Char) (i close : Nat)
    (htp : containsChar t '|' = false) (ha : stripWs a = []) :
    mkLink (t ++ '|' :: a) i close = none := by
  have hc : containsChar (t ++ '|' :: a) '|' = true := by
    simp [containsChar]
  simp only [mkLink, hc, if_true, splitFirst_append t a htp, ha]
  simp

/-- When the stored payload already carries the note's content hash, the
upsert is a no-op and does not re-embed. -/
theorem vector_upsert_note_skip (v : VectorState) (n : VectorNote)
    (h : (alookup v.points n.id).map (fun p => p.content_hash) = some n.content_hash) :
    vector_upsert_note v n = (v, false) := by
  cases hE : v.enabled with
  | false => simp [vector_upsert_note, hE]
  | true =>
    cases hl : alookup v.points n.id with
    | none =>
      rw [hl] at h
      exact absurd h (by simp)
    | some p =>
      rw [hl] at h
      simp only [Option.map] at h
      have h2 : p.content_hash = n.content_hash := Option.some.inj h
      simp [vector_upsert_note, hE, hl, h2]

/-!
Lemmas about the frontmatter scan.
-/

/-- `linesJoin ls tail` is the text made of the lines `ls`, each terminated
by a newline, followed by `tail`. -/
def linesJoin (ls : List (List Char)) (tail : List Char) : List Char :=
  ls.foldr (fun l acc => l ++ '\n' :: acc) tail

theorem splitAtNewline_append (line rest : List Char)
    (h : containsChar line '\n' = false) :
    splitAtNewline (line ++ '\n' :: rest) = some (line, rest) := by
  induction line with
  | nil => simp [splitAtNewline]
  | cons c cs ih =>
    simp only [containsChar, List.any_cons, Bool.or_eq_false_iff] at h
    have hc : ¬ c = '\n' := by
      intro he
      rw [he] at h
      simp at h
    have ih2 := ih (by simp [containsChar, h.2])
    simp [splitAtNewline, hc, ih2]

theorem splitAtNewline_none (l : List Char) (h : containsChar l '\n' = false) :
    splitAtNewline l = none := by
  induction l with
  | nil => rfl
  | cons c cs ih =>
    simp only [containsChar, List.any_cons, Bool.or_eq_false_iff] at h
    have hc : ¬ c = '\n' := by
      intro he
      rw [he] at h
      simp at h
    have ih2 := ih (by simp [containsChar, h.2])
    simp [splitAtNewline, hc, ih2]


theorem fmLoop_skip (yaml : YamlParse) (orig : String) (fuel : Nat) (acc line rest : List Char)
    (hnl : containsChar line '\n' = false) (hm : rstripCR line ≠ ['-', '-', '-']) :
    fmLoop yaml orig (fuel + 1) acc (line ++ '\n' :: rest) =
      fmLoop yaml orig fuel (acc ++ line ++ ['\n']) rest := by
  simp [fmLoop, splitAtNewline_append line rest hnl, hm]

theorem fmLoop_hit (yaml : YamlParse) (orig : String) (fuel : Nat) (acc rest : List Char) :
    fmLoop yaml orig (fuel + 1) acc ('-' :: '-' :: '-' :: '\n' :: rest) =
      (match yaml (String.mk acc) with
       | none => ⟨[], orig, some "frontmatter_yaml_error"⟩
       | some v =>
         match (if v.falsy then YamlVal.mapping [] else v) with
         | .mapping m => ⟨m, String.mk rest, none⟩
         | _ => ⟨[], orig, some "frontmatter_not_mapping"⟩) := by
  have hs : splitAtNewline (('-' :: '-' :: '-' :: []) ++ '\n' :: rest) =
      some (['-', '-', '-'], rest) := splitAtNewline_append _ _ (by decide)
  simp only [List.cons_append, List.nil_append] at hs
  simp [fmLoop, hs, rstripCR]

theorem linesJoin_length (ls : List (List Char)) (tail : List Char) :
    ls.length + tail.length ≤ (linesJoin ls tail).length := by
  induction ls with
  | nil => simp [linesJoin]
  | cons l ls2 ih =>
    simp only [linesJoin, List.foldr_cons, List.length_append, List.length_cons] at ih ⊢
    omega

theorem fmLoop_through (yaml : YamlParse) (orig : String) (ls : List (List Char)) :
    ∀ (fuel : Nat) (acc tail : List Char),
    (∀ li ∈ ls, containsChar li '\n' = false ∧ rstripCR li ≠ ['-', '-', '-']) →
    (linesJoin ls tail).length < fuel →
    fmLoop yaml orig fuel acc (linesJoin ls tail) =
      fmLoop yaml orig (fuel - ls.length) (acc ++ linesJoin ls []) tail := by
  induction ls with
  | nil =>
    intro fuel acc tail _ _
    simp [linesJoin]
  | cons l ls2 ih =>
    intro fuel acc tail hc hlen
    have hl := hc l (by simp)
    cases fuel with
    | zero => omega
    | succ f =>
      have hstep : linesJoin (l :: ls2) tail = l ++ '\n' :: linesJoin ls2 tail := rfl
      rw [hstep, fmLoop_skip yaml orig f acc l _ hl.1 hl.2]
      have hlen2 : (linesJoin ls2 tail).length < f := by
        rw [hstep] at hlen
        simp only [List.length_append, List.length_cons] at hlen
        omega
      rw [ih f (acc ++ l ++ ['\n']) tail (fun li hli => hc li (by simp [hli])) hlen2]
      have hacc : (acc ++ l ++ ['\n']) ++ linesJoin ls2 [] =
          acc ++ linesJoin (l :: ls2) [] := by
        simp [linesJoin, List.append_assoc]
      rw [hacc]
      have hf : f - ls2.length = f + 1 - (l :: ls2).length := by
        simp
      rw [hf]

theorem joinWith_linesJoin (ls : List (List Char)) (z : List Char) (h : ls ≠ []) :
    joinWith ['\n'] ls ++ '\n' :: z = linesJoin ls z := by
  induction ls with
  | nil => exact absurd rfl h
  | cons l ls2 ih =>
    cases ls2 with
    | nil => simp [joinWith, linesJoin]
    | cons l2 ls3 =>
      have ih2 := ih (by simp)
      simp only [joinWith, linesJoin, List.foldr_cons] at ih2 ⊢
      rw [← ih2]
      simp [List.append_assoc]

theorem parse_frontmatter_marker (yaml : YamlParse) (md : String) (X : List Char)
    (h : md.toList = '-' :: '-' :: '-' :: '\n' :: X) :
    parse_frontmatter yaml md = fmLoop yaml md (X.length + 1) [] X := by
  simp only [parse_frontmatter, h]
  simp [startsWithL, splitAtNewline, rstripCR]

theorem fmLoop_error (yaml : YamlParse) (orig : String) :
    ∀ (fuel : Nat) (acc rest : List Char) (e : String),
    (fmLoop yaml orig fuel acc rest).error = some e →
    fmLoop yaml orig fuel acc rest = ⟨[], orig, some e⟩ ∧
      (e = "frontmatter_yaml_error" ∨ e = "frontmatter_not_mapping") := by
  intro fuel
  induction fuel with
  | zero =>
    intro acc rest e h
    simp [fmLoop] at h
  | succ f ih =>
    intro acc rest e h
    rw [fmLoop] at h ⊢
    cases hs : splitAtNewline rest with
    | none =>
      rw [hs] at h
      simp at h
    | some p =>
      rw [hs] at h
      cases p with
      | mk line after =>
        dsimp only at h ⊢
        by_cases hm : rstripCR line = ['-', '-', '-']
        · rw [if_pos hm] at h ⊢
          revert h
          cases hy : yaml (String.mk acc) with
          | none =>
            intro h
            dsimp only at h ⊢
            have he := (Option.some.inj h).symm
            subst he
            exact ⟨rfl, Or.inl rfl⟩
          | some v =>
            intro h
            dsimp only at h ⊢
            by_cases hf : v.falsy = true
            · rw [if_pos hf] at h ⊢
              dsimp only at h
              simp at h
            · rw [if_neg hf] at h ⊢
              cases v with
              | scalar s =>
                dsimp only at h ⊢
                have he := (Option.some.inj h).symm
                subst he
                exact ⟨rfl, Or.inr rfl⟩
              | list l =>
                dsimp only at h ⊢
                have he := (Option.some.inj h).symm
                subst he
                exact ⟨rfl, Or.inr rfl⟩
              | mapping m =>
                dsimp only at h
                simp at h
        · rw [if_neg hm] at h ⊢
          exact ih _ _ _ h

theorem fmLoop_noclose (yaml : YamlParse) (orig : String) (fuel : Nat) (acc tail : List Char)
    (h : containsChar tail '\n' = false) :
    fmLoop yaml orig fuel acc tail = ⟨[], orig, none⟩ := by
  cases fuel with
  | zero => rfl
  | succ f => simp [fmLoop, splitAtNewline_none tail h]

theorem parse_frontmatter_nostart (yaml : YamlParse) (md : String)
    (h : startsWithL ['-', '-', '-'] md.toList = false) :
    parse_frontmatter yaml md = ⟨[], md, none⟩ := by
  unfold parse_frontmatter
  dsimp only
  rw [h]
  rfl

theorem parse_frontmatter_nonewline (yaml : YamlParse) (md : String)
    (h : splitAtNewline md.toList = none) :
    parse_frontmatter yaml md = ⟨[], md, none⟩ := by
  cases hS : startsWithL ['-', '-', '-'] md.toList with
  | false => exact parse_frontmatter_nostart yaml md hS
  | true =>
    unfold parse_frontmatter
    dsimp only
    rw [hS, h]
    rfl

theorem parse_frontmatter_badfirst (yaml : YamlParse) (md : String)
    (first after : List Char)
    (h : splitAtNewline md.toList = some (first, after))
    (hm : rstripCR first ≠ ['-', '-', '-']) :
    parse_frontmatter yaml md = ⟨[], md, none⟩ := by
  cases hS : startsWithL ['-', '-', '-'] md.toList with
  | false => exact parse_frontmatter_nostart yaml md hS
  | true =>
    unfold parse_frontmatter
    dsimp only
    rw [hS, h]
    simp only [Bool.not_true, Bool.false_eq_true, if_false]
    rw [if_neg hm]

theorem pyOrGet_eq (o : Option (List CatalogEntry)) (y : List CatalogEntry) :
    pyOrGet o y = if (o.getD []).isEmpty then y else o.getD [] := by
  cases o <;> simp [pyOrGet]

/-- When the three indexes together hold exactly one candidate, the
priority lookup returns exactly that candidate. -/
theorem candidatesFor_of_combined_singleton (tm am sm : List (String × List CatalogEntry))
    (key : String) (c : CatalogEntry)
    (h : combinedCandidates tm am sm key = [c]) :
    candidatesFor tm am sm key = [c] := by
  unfold combinedCandidates at h
  unfold candidatesFor
  rw [pyOrGet_eq, pyOrGet_eq, pyOrGet_eq]
  cases hA : (alookup tm key).getD [] with
  | cons a as =>
    rw [hA] at h
    simp at h
    obtain ⟨h1, h2, h3, h4⟩ := h
    simp [h1, h2, h3, h4]
  | nil =>
    rw [hA] at h
    simp at h
    cases hB : (alookup am key).getD [] with
    | cons b bs =>
      rw [hB] at h
      simp at h
      obtain ⟨h1, h2, h3⟩ := h
      simp [h1, h2, h3]
    | nil =>
      rw [hB] at h
      simp at h
      simp [h]

/-- When the three indexes hold no candidate at all, the priority lookup
returns none. -/
theorem candidatesFor_of_combined_nil (tm am sm : List (String × List CatalogEntry))
    (key : String) (h : combinedCandidates tm am sm key = []) :
    candidatesFor tm am sm key = [] := by
  unfold combinedCandidates at h
  unfold candidatesFor
  rw [pyOrGet_eq, pyOrGet_eq, pyOrGet_eq]
  simp only [List.append_eq_nil] at h
  simp [h.1.1, h.1.2, h.2]

/-!
Claims.
-/

/-- C4: per wiki-link outcome of the resolution loop.  When exactly one
candidate exists across the three catalog indexes combined, the link
resolves to that candidate (recorded in the resolved dictionary, with the
diagnostics untouched).  When the consulted index — exact normalized
title, falling back to exact normalized alias, falling back to exact
filename stem — holds more than one candidate for the key, the link is
reported ambiguous with the full candidate list and contributes nothing to
the resolved set.  When no index holds a candidate, the link is reported
unresolved, without error and without contribution. -/
theorem resolveStep_outcomes (tm am sm : List (String × List CatalogEntry))
    (st : ResolveState) (wl : WikiLink) :
    (∀ c : CatalogEntry,
      combinedCandidates tm am sm (normalize_link_target wl.target_raw) = [c] →
      resolveStep tm am sm st wl = { st with resolved := aset st.resolved c.id c }) ∧
    (1 < (candidatesFor tm am sm (normalize_link_target wl.target_raw)).length →
      resolveStep tm am sm st wl =
        { st with ambiguous := st.ambiguous ++
            [⟨wl.target_raw,
              (candidatesFor tm am sm (normalize_link_target wl.target_raw)).map
                (fun c => ⟨c.id, c.title, c.path⟩)⟩] }) ∧
    (combinedCandidates tm am sm (normalize_link_target wl.target_raw) = [] →
      resolveStep tm am sm st wl =
        { st with unresolved := st.unresolved ++ [wl.target_raw] }) := by
  refine ⟨?_, ?_, ?_⟩
  · intro c hc
    have h1 := candidatesFor_of_combined_singleton tm am sm _ c hc
    simp [resolveStep, h1]
  · intro hlen
    simp only [resolveStep]
    rw [if_neg (by omega), if_pos hlen]
  · intro hc
    have h1 := candidatesFor_of_combined_nil tm am sm _ hc
    simp [resolveStep, h1]

/-- Witness for C4: two notes share the title `T`; a link targeting `T` is
reported ambiguous with both candidates listed and resolves to nothing. -/
theorem resolveStep_outcomes_witness :
    resolveStep (buildMaps [⟨"1", "T", "t1.md", []⟩, ⟨"2", "T", "t2.md", []⟩]).1
        (buildMaps [⟨"1", "T", "t1.md", []⟩, ⟨"2", "T", "t2.md", []⟩]).2.1
        (buildMaps [⟨"1", "T", "t1.md", []⟩, ⟨"2", "T", "t2.md", []⟩]).2.2
        ⟨[], [], []⟩ ⟨"T", none, 0, 5⟩ =
      ⟨[], [⟨"T", [⟨"1", "T", "t1.md"⟩, ⟨"2", "T", "t2.md"⟩]⟩], []⟩ := by
  have h := (resolveStep_outcomes (buildMaps [⟨"1", "T", "t1.md", []⟩, ⟨"2", "T", "t2.md", []⟩]).1
    (buildMaps [⟨"1", "T", "t1.md", []⟩, ⟨"2", "T", "t2.md", []⟩]).2.1
    (buildMaps [⟨"1", "T", "t1.md", []⟩, ⟨"2", "T", "t2.md", []⟩]).2.2
    ⟨[], [], []⟩ ⟨"T", none, 0, 5⟩).2.1 (by decide)
  rw [h]
  decide

/-- C2 (counterexample): rendering the fields `{title: A}` with body
`"hello"` and parsing the result returns the fields exactly, but the body
comes back as `"\nhello"` — a newline is prepended (the blank separator
line after the closing fence belongs to the parsed body), so the
round-trip does not return exactly the body `b`. -/
theorem render_parse_roundtrip_counterexample :
    parse_frontmatter yamlParse0 (render_markdown_with_frontmatter yamlDump0
        [("title", ystr "A")] "hello") =
      ⟨[("title", ystr "A")], "\nhello", none⟩ ∧
    ("\nhello" : String) ≠ "hello" := by
  decide

/-- C2 (amended): for every non-empty header mapping `f` whose
serialization round-trips through the key-value parser and contains no
line equal to the fence marker, and every body `b`, rendering `(f, b)` and
parsing the result yields exactly the fields `f`, no error, and a body
equal to a newline followed by `b` stripped of leading whitespace — the
body round-trips only up to the prepended blank line and leading
whitespace, not exactly. -/
theorem render_parse_roundtrip_amended (yaml : YamlParse) (dump : YamlDump)
    (f : List (String × YamlField)) (b : String) (dumpLines : List (List Char))
    (hfne : f ≠ [])
    (hlines : dumpLines ≠ [])
    (hjoin : stripNL (dump f).toList = joinWith ['\n'] dumpLines)
    (hclean : ∀ li ∈ dumpLines, containsChar li '\n' = false ∧ rstripCR li ≠ ['-', '-', '-'])
    (hyaml : yaml (String.mk (stripNL (dump f).toList ++ ['\n'])) = some (.mapping f)) :
    parse_frontmatter yaml (render_markdown_with_frontmatter dump f b) =
      ⟨f, String.mk ('\n' :: lstripWs b.toList), none⟩ := by
  have hfe : f.isEmpty = false := by
    cases f with
    | nil => exact absurd rfl hfne
    | cons x xs => rfl
  have hrender : render_markdown_with_frontmatter dump f b =
      String.mk (('-' :: '-' :: '-' :: '\n' :: stripNL (dump f).toList)
        ++ ('\n' :: '-' :: '-' :: '-' :: '\n' :: '\n' :: lstripWs b.toList)) := by
    simp [render_markdown_with_frontmatter, hfe]
  have hX : stripNL (dump f).toList ++ ('\n' :: '-' :: '-' :: '-' :: '\n' :: '\n' :: lstripWs b.toList)
      = linesJoin dumpLines ('-' :: '-' :: '-' :: '\n' :: '\n' :: lstripWs b.toList) := by
    rw [hjoin]
    exact joinWith_linesJoin dumpLines _ hlines
  rw [hrender]
  simp only [List.cons_append]
  rw [parse_frontmatter_marker yaml _
    (stripNL (dump f).toList ++ ('\n' :: '-' :: '-' :: '-' :: '\n' :: '\n' :: lstripWs b.toList))
    rfl]
  rw [hX]
  have hge := linesJoin_length dumpLines ('-' :: '-' :: '-' :: '\n' :: '\n' :: lstripWs b.toList)
  rw [fmLoop_through yaml _ dumpLines _ [] _ hclean (by omega)]
  simp only [List.nil_append]
  have hljz : linesJoin dumpLines [] = stripNL (dump f).toList ++ ['\n'] := by
    rw [hjoin]
    exact (joinWith_linesJoin dumpLines [] hlines).symm
  have hf2 : (linesJoin dumpLines
        ('-' :: '-' :: '-' :: '\n' :: '\n' :: lstripWs b.toList)).length + 1
      - dumpLines.length =
      ((linesJoin dumpLines
        ('-' :: '-' :: '-' :: '\n' :: '\n' :: lstripWs b.toList)).length
      - dumpLines.length) + 1 := by
    simp only [List.length_cons] at hge
    omega
  rw [hf2, fmLoop_hit, hljz, hyaml]
  simp [YamlVal.falsy, hfe]

/-- Witness for the amended C2: the concrete fields `{title: A}` and body
`"hello"` round-trip to exactly the fields and the body `"\nhello"`. -/
theorem render_parse_roundtrip_amended_witness :
    parse_frontmatter yamlParse0 (render_markdown_with_frontmatter yamlDump0
        [("title", ystr "A")] "hello") =
      ⟨[("title", ystr "A")], String.mk ('\n' :: lstripWs "hello".toList), none⟩ :=
  render_parse_roundtrip_amended yamlParse0 yamlDump0 [("title", ystr "A")] "hello"
    [['t', 'i', 't', 'l', 'e', ':', ' ', 'A']] (by decide) (by decide) (by decide)
    (by decide) (by decide)

/-- C6 (counterexample): the text `"---\n[]\n---\nBody\n"` has a closing
marker and a block that parses to the empty list — a non-mapping — yet
parsing signals no error and strips the header, returning body `"Body\n"`
rather than the whole original text with a `not-a-mapping` error as the
claim states (PyYAML's falsy values are coerced to an empty mapping by the
`or {}` step). -/
theorem parse_frontmatter_falsy_nonmapping_counterexample :
    yamlParse0 "[]\n" = some (.list []) ∧
    (∀ m, YamlVal.list [] ≠ YamlVal.mapping m) ∧
    parse_frontmatter yamlParse0 "---\n[]\n---\nBody\n" = ⟨[], "Body\n", none⟩ ∧
    ("Body\n" : String) ≠ "---\n[]\n---\nBody\n" := by
  refine ⟨by decide, ?_, by decide, by decide⟩
  intro m h
  exact YamlVal.noConfusion h

/-- C6 (amended): the complete outcome characterization of
`parse_frontmatter`.  With no opening marker line, or no newline, or a
first line that is not exactly the marker, the whole text is the body with
empty fields and no error.  Every signalled error returns the whole
original text with empty fields and is one of the two error codes.  With a
proper opening and closing marker: a raising key-value parse yields the
`malformed-structure` error with the whole text; a truthy non-mapping
yields the `not-a-mapping` error with the whole text; but a falsy value
(null, false, zero, empty string, empty list) is coerced to an empty
mapping — the header is consumed with no error; a mapping yields its
fields with the remaining body.  With no closing marker ever found, the
whole text is the body with no error. -/
theorem parse_frontmatter_outcomes (yaml : YamlParse) (md : String) :
    (startsWithL ['-', '-', '-'] md.toList = false →
      parse_frontmatter yaml md = ⟨[], md, none⟩) ∧
    (splitAtNewline md.toList = none → parse_frontmatter yaml md = ⟨[], md, none⟩) ∧
    (∀ first after, splitAtNewline md.toList = some (first, after) →
      rstripCR first ≠ ['-', '-', '-'] → parse_frontmatter yaml md = ⟨[], md, none⟩) ∧
    (∀ e, (parse_frontmatter yaml md).error = some e →
      parse_frontmatter yaml md = ⟨[], md, some e⟩ ∧
      (e = "frontmatter_yaml_error" ∨ e = "frontmatter_not_mapping")) ∧
    (∀ X ls tail, md.toList = '-' :: '-' :: '-' :: '\n' :: X →
      X = linesJoin ls ('-' :: '-' :: '-' :: '\n' :: tail) →
      (∀ li ∈ ls, containsChar li '\n' = false ∧ rstripCR li ≠ ['-', '-', '-']) →
      (yaml (String.mk (linesJoin ls [])) = none →
        parse_frontmatter yaml md = ⟨[], md, some "frontmatter_yaml_error"⟩) ∧
      (∀ v, yaml (String.mk (linesJoin ls [])) = some v → v.falsy = true →
        parse_frontmatter yaml md = ⟨[], String.mk tail, none⟩) ∧
      (∀ m, yaml (String.mk (linesJoin ls [])) = some (.mapping m) →
        parse_frontmatter yaml md = ⟨m, String.mk tail, none⟩) ∧
      (∀ v, yaml (String.mk (linesJoin ls [])) = some v → v.falsy = false →
        (∀ m, v ≠ .mapping m) →
        parse_frontmatter yaml md = ⟨[], md, some "frontmatter_not_mapping"⟩)) ∧
    (∀ X ls tail, md.toList = '-' :: '-' :: '-' :: '\n' :: X →
      X = linesJoin ls tail →
      (∀ li ∈ ls, containsChar li '\n' = false ∧ rstripCR li ≠ ['-', '-', '-']) →
      containsChar tail '\n' = false →
      parse_frontmatter yaml md = ⟨[], md, none⟩) := by
  refine ⟨parse_frontmatter_nostart yaml md, parse_frontmatter_nonewline yaml md,
    fun first after h hm => parse_frontmatter_badfirst yaml md first after h hm, ?_, ?_, ?_⟩
  · intro e h
    cases hS : startsWithL ['-', '-', '-'] md.toList with
    | false =>
      rw [parse_frontmatter_nostart yaml md hS] at h
      simp at h
    | true =>
      cases hsn : splitAtNewline md.toList with
      | none =>
        rw [parse_frontmatter_nonewline yaml md hsn] at h
        simp at h
      | some p =>
        obtain ⟨first, after⟩ := p
        by_cases hm : rstripCR first = ['-', '-', '-']
        · have hu : parse_frontmatter yaml md = fmLoop yaml md (after.length + 1) [] after := by
            unfold parse_frontmatter
            dsimp only
            rw [hS, hsn]
            simp only [Bool.not_true, Bool.false_eq_true, if_false]
            rw [if_pos hm]
          rw [hu] at h ⊢
          exact fmLoop_error yaml md _ _ _ e h
        · rw [parse_frontmatter_badfirst yaml md first after hsn hm] at h
          simp at h
  · intro X ls tail hmd hX hclean
    have hp := parse_frontmatter_marker yaml md X hmd
    subst hX
    have hge := linesJoin_length ls ('-' :: '-' :: '-' :: '\n' :: tail)
    have hf2 : (linesJoin ls ('-' :: '-' :: '-' :: '\n' :: tail)).length + 1 - ls.length =
        ((linesJoin ls ('-' :: '-' :: '-' :: '\n' :: tail)).length - ls.length) + 1 := by
      simp only [List.length_cons] at hge
      omega
    rw [hp, fmLoop_through yaml md ls _ [] _ hclean (by omega), List.nil_append, hf2,
      fmLoop_hit]
    refine ⟨?_, ?_, ?_, ?_⟩
    · intro hy
      rw [hy]
    · intro v hy hf
      rw [hy]
      dsimp only
      rw [if_pos hf]
    · intro m hy
      rw [hy]
      dsimp only
      cases m with
      | nil => simp [YamlVal.falsy]
      | cons x xs => simp [YamlVal.falsy]
    · intro v hy hf hnm
      rw [hy]
      dsimp only
      rw [if_neg (by rw [hf]; exact Bool.false_ne_true)]
      cases v with
      | scalar s => rfl
      | list l => rfl
      | mapping m => exact absurd rfl (hnm m)
  · intro X ls tail hmd hX hclean htail
    have hp := parse_frontmatter_marker yaml md X hmd
    subst hX
    rw [hp, fmLoop_through yaml md ls _ [] _ hclean (by omega)]
    exact fmLoop_noclose yaml md _ _ tail htail

/-- Witness for the amended C6: a block that raises in the key-value
parser yields the `frontmatter_yaml_error` outcome with the whole original
text as body. -/
theorem parse_frontmatter_outcomes_witness :
    parse_frontmatter yamlParse0 "---\ntitle: [oops\n---\nBody\n" =
      ⟨[], "---\ntitle: [oops\n---\nBody\n", some "frontmatter_yaml_error"⟩ :=
  ((parse_frontmatter_outcomes yamlParse0 "---\ntitle: [oops\n---\nBody\n").2.2.2.2.1
    ("title: [oops".toList ++ '\n' :: '-' :: '-' :: '-' :: '\n' :: "Body\n".toList)
    [['t', 'i', 't', 'l', 'e', ':', ' ', '[', 'o', 'o', 'p', 's']] "Body\n".toList
    (by decide) (by decide) (by decide)).1 (by decide)

/-- C3 (counterexample): on the body `"[[T| ]]"` — a wiki-link span with
non-empty target `T` and an alias that is empty after trimming — the
parser records no wiki-link at all, not a link with raw target `"T"` and
absent alias as the claim states. -/
theorem empty_alias_link_dropped_counterexample :
    (parse_tags_and_links "[[T| ]]").2 = [] ∧
    ¬ ∃ wl ∈ (parse_tags_and_links "[[T| ]]").2,
        wl.target_raw = "T" ∧ wl.alias_raw = none := by
  decide

/-- C3 (amended): for a well-formed `[[T|A]]` span outside code regions
whose alias part is empty after trimming whitespace (and whose target part
contains no `|` or `]]`), the scanner consumes the whole span and records
no wiki-link for it — the links accumulator is returned unchanged, rather
than gaining a link with an absent alias. -/
theorem scanLoop_skips_empty_alias_span (fuel : Nat) (prev : Option Char) (i : Nat)
    (tags : List (List Char)) (links : List WikiLink) (t a rest : List Char)
    (hnb : containsSub [']', ']'] ((t ++ '|' :: a) ++ [']']) = false)
    (htp : containsChar t '|' = false) (ha : stripWs a = []) :
    scanLoop (fuel + 1) prev false false i tags links
      ('[' :: '[' :: ((t ++ '|' :: a) ++ ']' :: ']' :: rest)) =
      scanLoop fuel (some ']') false false (i + 2 + (t ++ '|' :: a).length + 2)
        tags links rest := by
  have hfc := findClose_append (t ++ '|' :: a) rest hnb
  have hml : ∀ cl : Nat, mkLink (t ++ '|' :: a) i cl = none :=
    fun cl => mkLink_empty_alias t a i cl htp ha
  simp only [List.append_assoc, List.cons_append] at hfc hml
  simp [scanLoop, startsWithL, hfc, hml]

/-- Witness for the amended C3: the concrete span `[[T| ]]` is consumed
whole and contributes no link. -/
theorem scanLoop_skips_empty_alias_span_witness :
    scanLoop 1 none false false 0 [] []
      ('[' :: '[' :: ((['T'] ++ '|' :: [' ']) ++ ']' :: ']' :: [])) =
      scanLoop 0 (some ']') false false (0 + 2 + (['T'] ++ '|' :: [' ']).length + 2)
        [] [] [] :=
  scanLoop_skips_empty_alias_span 0 none 0 [] [] ['T'] [' '] []
    (by decide) (by decide) (by decide)

/-- C7: path normalization maps `"folder\note"` to `"folder/note.md"`,
while `"../escape"`, `"/abs"` and `".sindhai/x"` each fail with the
specific `InvalidPath` reason for a parent-directory traversal, an absolute
path, and the reserved metadata area respectively. -/
theorem normalize_note_path_examples :
    normalize_note_path "folder\\note" = .ok "folder/note.md" ∧
    normalize_note_path "../escape" = .error "path_traversal_not_allowed" ∧
    normalize_note_path "/abs" = .error "path_absolute_not_allowed" ∧
    normalize_note_path ".sindhai/x" = .error "path_reserved" := by
  decide

/-- C8: tag and wiki-link extraction on the body
`"Hi `#no [[No]]` then #yes and [[Ok]]"` yields exactly the tag set
`{"yes"}` and exactly one wiki-link, with raw target `"Ok"` and no alias —
the hash mark and bracketed span inside the inline-code region are
ignored. -/
theorem parse_tags_links_code_regions_example :
    parse_tags_and_links "Hi `#no [[No]]` then #yes and [[Ok]]" =
      (["yes"], [⟨"Ok", none, 30, 36⟩]) := by
  decide

/-- C5: calling `index_note` twice in a row for the same note with no
intervening mutation (the second call sees the stores the first call left,
and the first call's resolved targets are consistent reads — any target
sharing the note's id carries the note's fingerprint) makes the second call
perform only the metadata upsert: the graph store executes no
edge-replacement transaction and the vector store computes no embedding. -/
theorem index_note_second_call_metadata_only (detail : NoteDetail)
    (targets1 targets2 : List GraphNote) (g : GraphState) (v : VectorState)
    (hcons : ∀ x ∈ targets1, x.id = detail.id → x.content_hash = detail.content_hash) :
    (index_note detail targets2 (index_note detail targets1 g v).graph
        (index_note detail targets1 g v).vector).replacedEdges = false ∧
    (index_note detail targets2 (index_note detail targets1 g v).graph
        (index_note detail targets1 g v).vector).embedded = false := by
  set r1 := index_note detail targets1 g v with hr1
  constructor
  · cases hgE : g.enabled with
    | false =>
      have h1 : r1.graph.enabled = false := by
        rw [hr1, index_note_graph_enabled]; exact hgE
      simp [index_note, h1]
    | true =>
      have h1 : r1.graph.enabled = true := by
        rw [hr1, index_note_graph_enabled]; exact hgE
      have h2 : note_content_hash r1.graph detail.id = some detail.content_hash := by
        rw [hr1]
        exact index_note_hash_after detail targets1 g v hgE hcons
      simp [index_note, h1, h2]
  · cases hvE : v.enabled with
    | false =>
      have h1 : r1.vector.enabled = false := by
        rw [hr1, index_note_vector_enabled]; exact hvE
      have h2 : ∀ n : VectorNote, vector_upsert_note r1.vector n = (r1.vector, false) := by
        intro n
        simp [vector_upsert_note, h1]
      simp [index_note, h2]
    | true =>
      have h2 : (alookup r1.vector.points detail.id).map (fun p => p.content_hash) =
          some detail.content_hash := by
        rw [hr1]
        exact index_note_vector_hash detail targets1 g v hvE
      simp only [index_note]
      rw [vector_upsert_note_skip _ _ h2]

/-- Witness for C5: a concrete enabled graph and vector store; after a
first indexing call, the immediate second call reports no edge replacement
and no embedding. -/
theorem index_note_second_call_metadata_only_witness :
    (index_note ⟨"a", "A", "a.md", "t1", "body", "h1", ["y"], none⟩ []
        (index_note ⟨"a", "A", "a.md", "t1", "body", "h1", ["y"], none⟩ []
          ⟨true, [], []⟩ ⟨true, []⟩).graph
        (index_note ⟨"a", "A", "a.md", "t1", "body", "h1", ["y"], none⟩ []
          ⟨true, [], []⟩ ⟨true, []⟩).vector).replacedEdges = false ∧
    (index_note ⟨"a", "A", "a.md", "t1", "body", "h1", ["y"], none⟩ []
        (index_note ⟨"a", "A", "a.md", "t1", "body", "h1", ["y"], none⟩ []
          ⟨true, [], []⟩ ⟨true, []⟩).graph
        (index_note ⟨"a", "A", "a.md", "t1", "body", "h1", ["y"], none⟩ []
          ⟨true, [], []⟩ ⟨true, []⟩).vector).embedded = false :=
  index_note_second_call_metadata_only ⟨"a", "A", "a.md", "t1", "body", "h1", ["y"], none⟩
    [] [] ⟨true, [], []⟩ ⟨true, []⟩ (by simp)

/-- C1: every `index_note` call upserts the metadata fields (title, path,
updated_at, fingerprint, parse error) into a configured graph store
unconditionally, while the stored tag set and outgoing-edge set are
replaced only when the stored fingerprint differs from the current one and
the current parse error is absent; in particular, indexing a note whose
header is malformed leaves its stored edges and tags unchanged while its
stored parse-error field is updated.  (The resolved targets are consistent
reads: a target sharing the note's id is the note's own projection.) -/
theorem index_note_metadata_always_edges_frozen (detail : NoteDetail)
    (targets : List GraphNote) (g : GraphState) (v : VectorState)
    (hcons : ∀ x ∈ targets, x.id = detail.id →
      x = ⟨detail.id, detail.title, detail.path, detail.updated_at, detail.tags,
        detail.content_hash⟩) :
    (g.enabled = true →
      ∃ node : GraphNodeRec,
        alookup (index_note detail targets g v).graph.nodes detail.id = some node ∧
        node.title = detail.title ∧ node.path = detail.path ∧
        node.updated_at = detail.updated_at ∧ node.content_hash = detail.content_hash ∧
        node.parse_error = detail.frontmatter_error) ∧
    ((note_content_hash g detail.id = some detail.content_hash ∨
        detail.frontmatter_error ≠ none) →
      edgesOf (index_note detail targets g v).graph detail.id = edgesOf g detail.id ∧
      tagsOf (index_note detail targets g v).graph detail.id = tagsOf g detail.id) ∧
    (g.enabled = true → note_content_hash g detail.id ≠ some detail.content_hash →
      detail.frontmatter_error = none →
      tagsOf (index_note detail targets g v).graph detail.id = some detail.tags ∧
      edgesOf (index_note detail targets g v).graph detail.id =
        (targets.map (fun t => t.id)).dedup) := by
  cases hgE : g.enabled with
  | false =>
    refine ⟨?_, ?_, ?_⟩
    · intro h
      exact Bool.noConfusion h
    · intro _
      rw [index_note_graph_disabled detail targets g v hgE]
      exact ⟨rfl, rfl⟩
    · intro h
      exact Bool.noConfusion h
  | true =>
    have hG : (index_note detail targets g v).graph =
        (if (decide (note_content_hash g detail.id ≠ some detail.content_hash) &&
            detail.frontmatter_error.isNone) = true
         then replace_outgoing_links (upsert_note g
            ⟨detail.id, detail.title, detail.path, detail.updated_at, detail.tags,
              detail.content_hash⟩ detail.frontmatter_error
            (decide (note_content_hash g detail.id ≠ some detail.content_hash) &&
              detail.frontmatter_error.isNone)) detail.id targets
         else upsert_note g ⟨detail.id, detail.title, detail.path, detail.updated_at,
            detail.tags, detail.content_hash⟩ detail.frontmatter_error
            (decide (note_content_hash g detail.id ≠ some detail.content_hash) &&
              detail.frontmatter_error.isNone)) := by
      simp only [index_note]
      rw [hgE]
      rfl
    cases hU : (decide (note_content_hash g detail.id ≠ some detail.content_hash) &&
        detail.frontmatter_error.isNone) with
    | true =>
      have hand := hU
      rw [Bool.and_eq_true] at hand
      have hne : note_content_hash g detail.id ≠ some detail.content_hash :=
        of_decide_eq_true hand.1
      have herr : detail.frontmatter_error = none :=
        Option.isNone_iff_eq_none.mp hand.2
      have h6 := upsert_note_lookup g
        ⟨detail.id, detail.title, detail.path, detail.updated_at, detail.tags,
          detail.content_hash⟩ detail.frontmatter_error true hgE
      have hlk : alookup (index_note detail targets g v).graph.nodes detail.id =
          some ⟨detail.title, detail.path, detail.updated_at, detail.content_hash,
            detail.frontmatter_error, some detail.tags⟩ := by
        rw [hG, if_pos hU, hU]
        apply replace_outgoing_links_lookup _ _ _ _ h6
        intro t hm hid
        rw [hcons t hm hid]
        rfl
      refine ⟨?_, ?_, ?_⟩
      · intro _
        exact ⟨_, hlk, rfl, rfl, rfl, rfl, rfl⟩
      · intro hor
        rcases hor with h | h
        · exact absurd h hne
        · exact absurd herr h
      · intro _ _ _
        constructor
        · simp only [tagsOf, hlk]
          rfl
        · rw [hG, if_pos hU]
          apply replace_outgoing_links_edges
          rw [upsert_note_enabled]
          exact hgE
    | false =>
      have h6 := upsert_note_lookup g
        ⟨detail.id, detail.title, detail.path, detail.updated_at, detail.tags,
          detail.content_hash⟩ detail.frontmatter_error false hgE
      have hGf : (index_note detail targets g v).graph =
          upsert_note g ⟨detail.id, detail.title, detail.path, detail.updated_at,
            detail.tags, detail.content_hash⟩ detail.frontmatter_error false := by
        rw [hG, hU]
        simp only [Bool.false_eq_true, if_false]
      refine ⟨?_, ?_, ?_⟩
      · intro _
        rw [hGf]
        exact ⟨_, h6, rfl, rfl, rfl, rfl, rfl⟩
      · intro _
        constructor
        · rw [hGf]
          simp only [edgesOf, upsert_note_edges]
        · rw [hGf]
          simp [tagsOf, h6]
      · intro _ hne herr
        have hT : (decide (note_content_hash g detail.id ≠ some detail.content_hash) &&
            detail.frontmatter_error.isNone) = true := by
          rw [decide_eq_true hne, herr]
          rfl
        rw [hU] at hT
        exact Bool.noConfusion hT

/-- Witness for C1: a note whose stored fingerprint is `h0` and whose graph
node carries tags `["x"]` and one edge to `b` is re-indexed with changed
content and a malformed header; the stored edges and tags are untouched
while the parse-error field now records the failure. -/
theorem index_note_metadata_always_edges_frozen_witness :
    edgesOf (index_note ⟨"a", "A", "a.md", "t1", "body", "h1", ["y"],
        some "frontmatter_yaml_error"⟩ []
        ⟨true, [("a", ⟨"A", "a.md", "t0", "h0", none, some ["x"]⟩)], [("a", ["b"])]⟩
        ⟨true, []⟩).graph "a" = ["b"] ∧
    tagsOf (index_note ⟨"a", "A", "a.md", "t1", "body", "h1", ["y"],
        some "frontmatter_yaml_error"⟩ []
        ⟨true, [("a", ⟨"A", "a.md", "t0", "h0", none, some ["x"]⟩)], [("a", ["b"])]⟩
        ⟨true, []⟩).graph "a" = some ["x"] ∧
    ∃ node : GraphNodeRec,
      alookup (index_note ⟨"a", "A", "a.md", "t1", "body", "h1", ["y"],
          some "frontmatter_yaml_error"⟩ []
          ⟨true, [("a", ⟨"A", "a.md", "t0", "h0", none, some ["x"]⟩)], [("a", ["b"])]⟩
          ⟨true, []⟩).graph.nodes "a" = some node ∧
        node.parse_error = some "frontmatter_yaml_error" := by
  obtain ⟨h1, h2, _⟩ := index_note_metadata_always_edges_frozen
    ⟨"a", "A", "a.md", "t1", "body", "h1", ["y"], some "frontmatter_yaml_error"⟩ []
    ⟨true, [("a", ⟨"A", "a.md", "t0", "h0", none, some ["x"]⟩)], [("a", ["b"])]⟩
    ⟨true, []⟩ (by simp)
  obtain ⟨he, ht⟩ := h2 (Or.inr (by simp))
  obtain ⟨node, hn, _, _, _, _, hpe⟩ := h1 rfl
  refine ⟨?_, ?_, node, hn, hpe⟩
  · rw [he]
    rfl
  · rw [ht]
    rfl

/-- C10: `delete_note` raises `NotFound` exactly when the id resolves to no
path in the identity mapping; when the id is mapped but the file at the
mapped path no longer exists, the call still succeeds, removes the mapping
entry for that path (leaving every other key untouched), and returns the
mapped path. -/
theorem delete_note_missing_file_ok (v : VaultState) (note_id : String)
    (hp : ∀ pr ∈ v.mapping, pr.1 ≠ "")
    (hnd : (v.mapping.map Prod.fst).Nodup) :
    (delete_note v note_id = .error "NotFound" ↔ resolve_path v.mapping note_id = none) ∧
    (∀ p, resolve_path v.mapping note_id = some p → v.files.contains p = false →
      ∃ v2, delete_note v note_id = .ok (p, v2) ∧ v2.files = v.files ∧
        alookup v2.mapping p = none ∧
        ∀ k, k ≠ p → alookup v2.mapping k = alookup v.mapping k) := by
  constructor
  · constructor
    · intro h
      cases hres : resolve_path v.mapping note_id with
      | none => rfl
      | some p =>
        exfalso
        have hpne : p ≠ "" := hp (p, note_id) (resolve_path_some_mem _ _ _ hres)
        simp only [delete_note, hres, if_neg hpne] at h
        exact Except.noConfusion h
    · intro h
      simp only [delete_note, h]
  · intro p hres hfile
    have hpne : p ≠ "" := hp (p, note_id) (resolve_path_some_mem _ _ _ hres)
    refine ⟨⟨delete_path v.mapping p, v.files⟩, ?_, rfl, ?_, ?_⟩
    · simp only [delete_note, hres, if_neg hpne, hfile]
      simp
    · simp only [delete_path]
      by_cases hs : (alookup v.mapping p).isSome
      · rw [if_pos hs]
        exact alookup_aerase_self _ _ hnd
      · rw [if_neg hs]
        exact Option.not_isSome_iff_eq_none.mp hs
    · intro k hk
      simp only [delete_path]
      by_cases hs : (alookup v.mapping p).isSome
      · rw [if_pos hs]
        exact alookup_aerase_ne _ _ _ hk
      · rw [if_neg hs]

/-- Witness for C10: a one-note vault whose mapped file is already gone
from disk; deleting the id succeeds, returns the mapped path, and clears
the mapping. -/
theorem delete_note_missing_file_ok_witness :
    ∃ v2, delete_note ⟨[("a.md", "id1")], []⟩ "id1" = .ok ("a.md", v2) ∧
      v2.files = [] ∧ alookup v2.mapping "a.md" = none := by
  obtain ⟨v2, h1, h2, h3, _⟩ :=
    (delete_note_missing_file_ok ⟨[("a.md", "id1")], []⟩ "id1" (by decide) (by simp)).2
      "a.md" (by decide) (by decide)
  exact ⟨v2, h1, h2, h3⟩

/-- C9 (code bug): `list_summaries` sorts by the RFC 3339 `updated_at`
string, descending; `isoformat` omits the fractional part for
whole-second timestamps, and `Z` compares greater than `.`, so a note
modified at 0.0 s sorts before a note modified 0.5 s later — the output is
not most-recently-modified first. -/
theorem list_summaries_order_bug :
    rfc3339_from_timestamp 0 = "1970-01-01T00:00:00Z" ∧
    rfc3339_from_timestamp 500000 = "1970-01-01T00:00:00.500000Z" ∧
    (list_summaries ⟨[⟨"a.md", "a", [], 0⟩, ⟨"b.md", "b", [], 500000⟩]⟩ none none).map
        (fun s => (s.path, s.updated_at)) =
      [("a.md", "1970-01-01T00:00:00Z"), ("b.md", "1970-01-01T00:00:00.500000Z")] := by
  decide

end Sindhai
